import Mathlib

/-!
IRC protocol engine (`IrcConnection`).

A shallow embedding of `src/src/IrcConnection.cpp`: the receive path
(`onReadyRead`), the message parser and dispatcher (`parseIrcMessage`,
`handleNumericReply`, `extractNickname`) and the outbound commands
(`sendRawMessage`, `setNickname`, `joinChannel`, `partChannel`, `sendMessage`,
`disconnect`).

Qt value types are modelled by lists: a `QString` is the list of its
characters (Unicode code points), a `QStringList` a list of strings, a
`QByteArray` a list of byte values.  The
Qt library functions the source calls (`trimmed`, `indexOf`, `mid`, `left`,
`split`, `join`, `toInt`, `arg`, `toUtf8`) are modelled after their documented
behaviour.  Signals are recorded, in emission order, in the `emitted` field of
the connection; calls on the socket are recorded in the socket's `ops` field.
An indexing `list[i]` outside the list is a fault.
-/

namespace IrcChat

/-! ## Qt value types -/

abbrev QString := List Char
abbrev QStringList := List QString
abbrev QByteArray := List Nat

/-- Text of a string literal of the source. -/
def qs (s : String) : QString := s.data

/-- QChar::isSpace: the ASCII white space characters, NEL, NBSP and the
Unicode separator categories Zs, Zl and Zp. -/
def isSpace (c : Char) : Bool :=
  let u := c.toNat
  u == 0x20 || (0x09 ≤ u && u ≤ 0x0d) || u == 0x85 || u == 0xa0 || u == 0x1680
    || (0x2000 ≤ u && u ≤ 0x200a) || u == 0x2028 || u == 0x2029 || u == 0x202f
    || u == 0x205f || u == 0x3000

/-- QString::trimmed: white space removed from both ends. -/
def trimmed (s : QString) : QString :=
  ((s.dropWhile isSpace).reverse.dropWhile isSpace).reverse

/-- QString::startsWith(QChar). -/
def startsWith (s : QString) (c : Char) : Bool :=
  match s with
  | [] => false
  | x :: _ => x == c

/-- QString::indexOf(QChar): index of the first occurrence, -1 when there is none. -/
def indexOf (s : QString) (c : Char) : Int :=
  if c ∈ s then ((s.takeWhile (fun x => x != c)).length : Int) else -1

/-- The two-argument `mid(position, n)` of QString and QList
(QContainerImplHelper::mid): a negative `n`, or one reaching beyond the end,
means "up to the end"; a position beyond the end gives the empty value. -/
def mid {α : Type} (l : List α) (position n : Int) : List α :=
  let len : Int := l.length
  if position > len then []
  else if position < 0 then
    if n < 0 ∨ n + position ≥ len then l
    else if n + position ≤ 0 then []
    else l.take (n + position).toNat
  else if n < 0 ∨ n > len - position then l.drop position.toNat
  else (l.drop position.toNat).take n.toNat

/-- The one-argument `mid(position)`: the length defaults to -1. -/
def midFrom {α : Type} (l : List α) (position : Int) : List α :=
  mid l position (-1)

/-- QString::left(n): the whole string when `n` is negative or not less than
the size. -/
def left (s : QString) (n : Int) : QString :=
  if n < 0 ∨ n ≥ (s.length : Int) then s else s.take n.toNat

/-- QString::split(sep) with the default Qt::KeepEmptyParts: the result is
never empty, the empty string splits into one empty string. -/
def split (sep : Char) : QString → QStringList
  | [] => [[]]
  | c :: cs =>
    if c = sep then [] :: split sep cs
    else
      match split sep cs with
      | [] => [[c]]
      | w :: ws => (c :: w) :: ws

/-- QString::split(sep, Qt::SkipEmptyParts). -/
def splitSkipEmpty (sep : Char) (s : QString) : QStringList :=
  (split sep s).filter (fun w => !w.isEmpty)

/-- QStringList::join(sep). -/
def join (sep : Char) : QStringList → QString
  | [] => []
  | [w] => w
  | w :: ws => w ++ sep :: join sep ws

/-- ASCII decimal digit. -/
def isDigit (c : Char) : Bool := 48 ≤ c.toNat && c.toNat ≤ 57

/-- Value of a run of decimal digits. -/
def digitsValue (ds : QString) : Nat :=
  ds.foldl (fun acc d => 10 * acc + (d.toNat - 48)) 0

/-- QString::toInt(&ok) in base 10: surrounding white space is ignored, an
optional sign is followed by at least one decimal digit, and the value has to
fit a 32-bit int; `none` stands for `ok == false`. -/
def toInt (s : QString) : Option Int :=
  let t := trimmed s
  let neg := startsWith t '-'
  let ds := if startsWith t '-' || startsWith t '+' then t.drop 1 else t
  if ds.isEmpty || !ds.all isDigit then none
  else
    let v : Int := if neg then -(digitsValue ds : Int) else (digitsValue ds : Int)
    if -2147483648 ≤ v ∧ v ≤ 2147483647 then some v else none

/-- QString::number(int): decimal text. -/
def number (n : Int) : QString := (toString n).data

/-- UTF-8 encoding of one character. -/
def utf8EncodeChar (c : Char) : QByteArray :=
  let v := c.toNat
  if v ≤ 0x7f then [v]
  else if v ≤ 0x7ff then [0xc0 + v / 64, 0x80 + v % 64]
  else if v ≤ 0xffff then [0xe0 + v / 4096, 0x80 + (v / 64) % 64, 0x80 + v % 64]
  else [0xf0 + v / 262144, 0x80 + (v / 4096) % 64, 0x80 + (v / 64) % 64, 0x80 + v % 64]

/-- QString::toUtf8. -/
def toUtf8 (s : QString) : QByteArray := s.flatMap utf8EncodeChar

/-! ## Place markers of `QString::arg` -/

/-- A piece of a format string: a literal character, or a place marker `%N`
(with its source text, kept when the marker is not replaced). -/
inductive FmtPiece where
  | lit (c : Char)
  | marker (n : Nat) (src : QString)
  deriving DecidableEq, Repr

/-- Reads a place marker at the start of the text: `%`, an optional `L`, one
digit and an optional second digit.  Returns the marker number, its source
text and the text after it. -/
def readMarker (s : QString) : Option (Nat × QString × QString) :=
  match s with
  | '%' :: rest =>
    let (flag, r) := if startsWith rest 'L' then (['L'], rest.drop 1) else ([], rest)
    match r with
    | d1 :: r1 =>
      if isDigit d1 then
        match r1 with
        | d2 :: r2 =>
          if isDigit d2 then
            some (10 * (d1.toNat - 48) + (d2.toNat - 48), '%' :: flag ++ [d1, d2], r2)
          else some (d1.toNat - 48, '%' :: flag ++ [d1], r1)
        | [] => some (d1.toNat - 48, '%' :: flag ++ [d1], r1)
      else none
    | [] => none
  | _ => none

/-- The format string cut into pieces, left to right; `fuel` bounds the number
of pieces and the length of the string is always enough. -/
def fmtPiecesAux : Nat → QString → List FmtPiece
  | 0, _ => []
  | _, [] => []
  | fuel + 1, c :: cs =>
    match readMarker (c :: cs) with
    | some (n, src, rest) => FmtPiece.marker n src :: fmtPiecesAux fuel rest
    | none => FmtPiece.lit c :: fmtPiecesAux fuel cs

def fmtPieces (fmt : QString) : List FmtPiece := fmtPiecesAux fmt.length fmt

/-- The marker numbers that occur in a format, ascending, without repetition. -/
def markerNumbers (ps : List FmtPiece) : List Nat :=
  ((List.range 100).filter (fun n => ps.any (fun p =>
    match p with
    | FmtPiece.marker m _ => m == n
    | FmtPiece.lit _ => false)))

/-- Replaces, in one pass over the format, the markers numbered `ns[i]` by
`args[i]`; every other piece keeps its source text. -/
def substitute (ps : List FmtPiece) (ns : List Nat) (args : List QString) : QString :=
  ps.flatMap (fun p =>
    match p with
    | FmtPiece.lit c => [c]
    | FmtPiece.marker m src =>
      match (ns.zip args).find? (fun na => na.1 == m) with
      | some na => na.2
      | none => src)

/-- QString::arg(a): every occurrence of the lowest-numbered place marker is
replaced by `a`; the inserted text is not scanned again. -/
def arg (fmt : QString) (a : QString) : QString :=
  let ps := fmtPieces fmt
  substitute ps ((markerNumbers ps).take 1) [a]

/-- QString::arg(a1, a2): the two lowest-numbered place markers are replaced
by `a1` and `a2` in one pass. -/
def arg2 (fmt : QString) (a1 a2 : QString) : QString :=
  let ps := fmtPieces fmt
  substitute ps ((markerNumbers ps).take 2) [a1, a2]

/-! ## The socket -/

/-- QAbstractSocket::SocketState. -/
inductive SocketState where
  | UnconnectedState
  | HostLookupState
  | ConnectingState
  | ConnectedState
  | BoundState
  | ListeningState
  | ClosingState
  deriving DecidableEq, Repr

/-- What the program can observe of the socket's lifecycle through `state()`
and `isOpen()`.  QAbstractSocket opens the device in connectToHost before the
state leaves UnconnectedState and the device stays open until close() is
called, so only an unconnected socket can be not open. -/
inductive SocketPhase where
  | notOpen
  | unconnected
  | hostLookup
  | connecting
  | connected
  | closing
  deriving DecidableEq, Repr

/-- A call the program makes on its socket. -/
inductive SocketOp where
  | write (bytes : QByteArray)
  | flush
  | disconnectFromHost
  deriving DecidableEq, Repr

/-- The QTcpSocket owned by the connection: its lifecycle phase, the bytes
received and not yet read, and the calls made on it, oldest first. -/
structure QTcpSocket where
  phase : SocketPhase
  readBuffer : QByteArray
  ops : List SocketOp
  deriving DecidableEq, Repr

namespace QTcpSocket

/-- QAbstractSocket::state(). -/
def state (s : QTcpSocket) : SocketState :=
  match s.phase with
  | SocketPhase.notOpen => SocketState.UnconnectedState
  | SocketPhase.unconnected => SocketState.UnconnectedState
  | SocketPhase.hostLookup => SocketState.HostLookupState
  | SocketPhase.connecting => SocketState.ConnectingState
  | SocketPhase.connected => SocketState.ConnectedState
  | SocketPhase.closing => SocketState.ClosingState

/-- QIODevice::isOpen(). -/
def isOpen (s : QTcpSocket) : Bool :=
  match s.phase with
  | SocketPhase.notOpen => false
  | _ => true

/-- QIODevice::write(bytes). -/
def write (s : QTcpSocket) (bytes : QByteArray) : QTcpSocket :=
  { s with ops := s.ops ++ [SocketOp.write bytes] }

/-- QAbstractSocket::flush(). -/
def flush (s : QTcpSocket) : QTcpSocket :=
  { s with ops := s.ops ++ [SocketOp.flush] }

/-- QAbstractSocket::disconnectFromHost(): nothing happens on an unconnected
socket; otherwise the close is requested and the socket is closing until the
transport reports the close. -/
def disconnectFromHost (s : QTcpSocket) : QTcpSocket :=
  match s.phase with
  | SocketPhase.notOpen => { s with ops := s.ops ++ [SocketOp.disconnectFromHost] }
  | SocketPhase.unconnected => { s with ops := s.ops ++ [SocketOp.disconnectFromHost] }
  | _ => { s with phase := SocketPhase.closing, ops := s.ops ++ [SocketOp.disconnectFromHost] }

/-- QIODevice::canReadLine(): a line feed is buffered. -/
def canReadLine (s : QTcpSocket) : Bool := s.readBuffer.contains 10

/-- QIODevice::readLine(): the buffered bytes up to and including the first
line feed (all of them when there is none) are taken out of the buffer. -/
def readLine (s : QTcpSocket) : QByteArray × QTcpSocket :=
  let body := s.readBuffer.takeWhile (fun b => b != 10)
  let rest := s.readBuffer.dropWhile (fun b => b != 10)
  (body ++ rest.take 1, { s with readBuffer := rest.drop 1 })

/-- Bytes arrive from the transport. -/
def receive (s : QTcpSocket) (bytes : QByteArray) : QTcpSocket :=
  { s with readBuffer := s.readBuffer ++ bytes }

/-- All the bytes written so far, in order. -/
def written (s : QTcpSocket) : QByteArray :=
  s.ops.flatMap (fun op =>
    match op with
    | SocketOp.write bytes => bytes
    | _ => [])

end QTcpSocket

/-! ## The connection -/

/-- The signals of IrcConnection. -/
inductive Event where
  | connected
  | disconnected
  | connectionError (error : QString)
  | messageReceived (sender target message : QString)
  | noticeReceived (sender message : QString)
  | joinedChannel (channel user : QString)
  | partedChannel (channel user : QString)
  | userListReceived (channel : QString) (users : QStringList)
  | topicReceived (channel topic : QString)
  | serverMessageReceived (message : QString)
  | nickChanged (oldNick newNick : QString)
  deriving DecidableEq, Repr

/-- A line of diagnostic output: the operands streamed to qDebug() or
qWarning(). -/
inductive LogEntry where
  | debug (items : List QString)
  | warning (items : List QString)
  deriving DecidableEq, Repr

/-- An access outside a list. -/
inductive Fault where
  | indexOutOfRange
  deriving DecidableEq, Repr

/-- The members of IrcConnection, with the signals emitted so far (`emitted`)
and the diagnostic output so far (`log`), oldest first. -/
structure IrcConnection where
  m_socket : QTcpSocket
  m_nickname : QString
  m_server : QString
  m_port : Nat
  m_buffer : QString
  emitted : List Event
  log : List LogEntry
  deriving DecidableEq, Repr

deriving instance DecidableEq for Except

/-- QList::operator[]: an index outside the list is a fault. -/
def index {α : Type} (l : List α) (i : Nat) : Except Fault α :=
  match l.get? i with
  | some x => Except.ok x
  | none => Except.error Fault.indexOutOfRange

def emit (c : IrcConnection) (e : Event) : IrcConnection :=
  { c with emitted := c.emitted ++ [e] }

def qDebug (c : IrcConnection) (items : List QString) : IrcConnection :=
  { c with log := c.log ++ [LogEntry.debug items] }

def qWarning (c : IrcConnection) (items : List QString) : IrcConnection :=
  { c with log := c.log ++ [LogEntry.warning items] }

def isConnected (c : IrcConnection) : Bool :=
  c.m_socket.state == SocketState.ConnectedState

def sendRawMessage (c : IrcConnection) (message : QString) : IrcConnection :=
  if !isConnected c then
    qWarning c [qs "Not connected to server"]
  else
    let msg := message ++ qs "\r\n"
    let c := qDebug c [qs ">> ", message]
    let c := { c with m_socket := c.m_socket.write (toUtf8 msg) }
    { c with m_socket := c.m_socket.flush }

def disconnect (c : IrcConnection) : IrcConnection :=
  if c.m_socket.isOpen then
    let c := sendRawMessage c (qs "QUIT :Leaving")
    { c with m_socket := c.m_socket.disconnectFromHost }
  else c

def setNickname (c : IrcConnection) (nick : QString) : IrcConnection :=
  let c := { c with m_nickname := nick }
  let c := sendRawMessage c (arg (qs "NICK %1") nick)
  sendRawMessage c (arg (qs "USER %1 0 * :%1") nick)

def joinChannel (c : IrcConnection) (channel : QString) : IrcConnection :=
  sendRawMessage c (arg (qs "JOIN %1") channel)

def partChannel (c : IrcConnection) (channel : QString) : IrcConnection :=
  sendRawMessage c (arg (qs "PART %1") channel)

def sendMessage (c : IrcConnection) (target message : QString) : IrcConnection :=
  sendRawMessage c (arg2 (qs "PRIVMSG %1 :%2") target message)

def sendPrivateMessage (c : IrcConnection) (user message : QString) : IrcConnection :=
  sendMessage c user message

def onConnected (c : IrcConnection) : IrcConnection :=
  let c := qDebug c [qs "Connected to server"]
  emit c Event.connected

def onDisconnected (c : IrcConnection) : IrcConnection :=
  let c := qDebug c [qs "Disconnected from server"]
  emit c Event.disconnected

def extractNickname (pfx : QString) : QString :=
  let exclamationPos := indexOf pfx '!'
  if exclamationPos > 0 then left pfx exclamationPos
  else pfx

def handleNumericReply (c : IrcConnection) (code : Int) (params : QStringList) :
    Except Fault IrcConnection :=
  if code = 1 then
    pure (emit c (Event.serverMessageReceived (join ' ' params)))
  else if code = 332 then
    if params.length ≥ 2 then do
      let channel ← index params 1
      let topic := if params.length > 2 then join ' ' (midFrom params 2) else qs ""
      pure (emit c (Event.topicReceived channel topic))
    else pure c
  else if code = 353 then
    if params.length ≥ 3 then do
      let channel ← index params 2
      let userList := if params.length > 3 then join ' ' (midFrom params 3) else qs ""
      let users := splitSkipEmpty ' ' userList
      pure (emit c (Event.userListReceived channel users))
    else pure c
  else if code = 366 then
    pure c
  else
    pure (emit c (Event.serverMessageReceived (number code ++ qs " " ++ join ' ' params)))

/-- The result of the parse step of parseIrcMessage (source lines 128 to 152):
the prefix, the command, the positional parameters left in `parts` and the
trailing parameter (empty when there is none). -/
structure ParsedMessage where
  pfx : QString
  command : QString
  parts : QStringList
  trailing : QString
  deriving DecidableEq, Repr

/-- The loop that extracts the trailing parameter: at the first `parts[i]`
that starts with a colon, `trailing` is `parts.mid(i).join(' ').mid(1)` and
`parts` becomes `parts.mid(0, i)`; without such an element nothing changes. -/
def extractTrailing (parts : QStringList) : QStringList × QString :=
  match parts.findIdx? (fun p => startsWith p ':') with
  | some i => (mid parts 0 i, midFrom (join ' ' (midFrom parts i)) 1)
  | none => (parts, [])

/-- The parse step of parseIrcMessage; `none` is the early return on an empty
`parts` list. -/
def parseLine (line : QString) : Option ParsedMessage :=
  let message := line
  let pfx : QString := []
  let (pfx, message) :=
    if startsWith message ':' then
      let spacePos := indexOf message ' '
      (mid message 1 (spacePos - 1), trimmed (midFrom message (spacePos + 1)))
    else (pfx, message)
  let parts := split ' ' message
  match parts with
  | [] => none
  | command :: parts =>
    let (parts, trailing) := extractTrailing parts
    some { pfx := pfx, command := command, parts := parts, trailing := trailing }

/-- The dispatch step of parseIrcMessage (source lines 154 to 200). -/
def dispatch (c : IrcConnection) (m : ParsedMessage) : Except Fault IrcConnection :=
  if m.command = qs "PING" then
    pure (sendRawMessage c
      (arg (qs "PONG %1") (if m.trailing.isEmpty then join ' ' m.parts else m.trailing)))
  else
    match toInt m.command with
    | some numericCode =>
      let params := if !m.trailing.isEmpty then m.parts ++ [m.trailing] else m.parts
      handleNumericReply c numericCode params
    | none =>
      if m.command = qs "PRIVMSG" then
        if m.parts.length ≥ 1 then do
          let target ← index m.parts 0
          let sender := extractNickname m.pfx
          pure (emit c (Event.messageReceived sender target m.trailing))
        else pure c
      else if m.command = qs "NOTICE" then
        let sender := extractNickname m.pfx
        pure (emit c (Event.noticeReceived sender m.trailing))
      else if m.command = qs "JOIN" then do
        let channel ← if m.trailing.isEmpty then index m.parts 0 else pure m.trailing
        let user := extractNickname m.pfx
        pure (emit c (Event.joinedChannel channel user))
      else if m.command = qs "PART" then
        if m.parts.length ≥ 1 then do
          let channel ← index m.parts 0
          let user := extractNickname m.pfx
          pure (emit c (Event.partedChannel channel user))
        else pure c
      else if m.command = qs "NICK" then do
        let oldNick := extractNickname m.pfx
        let newNick ← if m.trailing.isEmpty then index m.parts 0 else pure m.trailing
        pure (emit c (Event.nickChanged oldNick newNick))
      else pure c

def parseIrcMessage (c : IrcConnection) (line : QString) : Except Fault IrcConnection :=
  match parseLine line with
  | none => pure c
  | some m => dispatch c m

/-- The loop of onReadyRead.  Every turn takes at least the line feed out of
the read buffer, so a fuel equal to the number of buffered bytes lets the loop
run until canReadLine() is false.  `fromUtf8` is QString::fromUtf8. -/
def onReadyReadLoop (fromUtf8 : QByteArray → QString) :
    Nat → IrcConnection → Except Fault IrcConnection
  | 0, c => pure c
  | fuel + 1, c =>
    if c.m_socket.canReadLine then
      let (bytes, socket) := c.m_socket.readLine
      let c := { c with m_socket := socket }
      let line := trimmed (fromUtf8 bytes)
      if !line.isEmpty then do
        let c := qDebug c [qs "<< ", line]
        let c ← parseIrcMessage c line
        onReadyReadLoop fromUtf8 fuel c
      else onReadyReadLoop fromUtf8 fuel c
    else pure c

def onReadyRead (fromUtf8 : QByteArray → QString) (c : IrcConnection) :
    Except Fault IrcConnection :=
  onReadyReadLoop fromUtf8 c.m_socket.readBuffer.length c

/-- The receive path: the transport appends a chunk to the socket's buffer and
signals readyRead. -/
def feed (fromUtf8 : QByteArray → QString) (c : IrcConnection) (chunk : QByteArray) :
    Except Fault IrcConnection :=
  onReadyRead fromUtf8 { c with m_socket := c.m_socket.receive chunk }

/-- A decoder of ASCII text, for evaluating the receive path on examples. -/
def asciiDecode (bytes : QByteArray) : QString := bytes.map Char.ofNat

/-- A connection in the connected state that has done nothing yet. -/
def connectedConn : IrcConnection :=
  { m_socket := { phase := SocketPhase.connected, readBuffer := [], ops := [] },
    m_nickname := [], m_server := qs "irc.example.org", m_port := 6667, m_buffer := [],
    emitted := [], log := [] }

/-- A connection whose socket was never opened. -/
def idleConn : IrcConnection :=
  { m_socket := { phase := SocketPhase.notOpen, readBuffer := [], ops := [] },
    m_nickname := [], m_server := [], m_port := 6667, m_buffer := [],
    emitted := [], log := [] }

/-- The chunks of a byte stream fed one after the other. -/
def feedAll (fromUtf8 : QByteArray → QString) (c : IrcConnection)
    (chunks : List QByteArray) : Except Fault IrcConnection :=
  chunks.foldlM (feed fromUtf8) c

/-- The read buffer replaced, everything else kept. -/
def setBuf (c : IrcConnection) (b : QByteArray) : IrcConnection :=
  { c with m_socket := { c.m_socket with readBuffer := b } }

/-- The body of one turn of the onReadyRead loop once the line is read:
decode, trim, and hand a non-empty line to parseIrcMessage. -/
def handleBytes (fromUtf8 : QByteArray → QString) (c : IrcConnection)
    (bytes : QByteArray) : Except Fault IrcConnection :=
  let line := trimmed (fromUtf8 bytes)
  if !line.isEmpty then parseIrcMessage (qDebug c [qs "<< ", line]) line
  else pure c

/-- Specification of the line framer, independent of the loop of onReadyRead:
the complete lines of a byte sequence, each with its line feed, and the
unterminated rest after the last line feed. -/
def frameBytes : QByteArray → List QByteArray × QByteArray
  | [] => ([], [])
  | b :: bs =>
    if b = 10 then ([10] :: (frameBytes bs).1, (frameBytes bs).2)
    else
      match (frameBytes bs).1 with
      | [] => ([], b :: (frameBytes bs).2)
      | l :: ls => ((b :: l) :: ls, (frameBytes bs).2)

/-- Specification of the lines that a byte sequence holds for
parseIrcMessage: its complete lines, decoded and trimmed, the empty ones left
out. -/
def linesOf (fromUtf8 : QByteArray → QString) (bytes : QByteArray) : List QString :=
  ((frameBytes bytes).1.map (fun l => trimmed (fromUtf8 l))).filter (fun l => !l.isEmpty)

/-- The lines handed to parseIrcMessage so far, read off the diagnostic
output: onReadyRead prints each line after the marker "<< " right before the
call. -/
def handedLines (c : IrcConnection) : List QString :=
  c.log.filterMap (fun e =>
    match e with
    | LogEntry.debug [marker, line] => if marker = qs "<< " then some line else none
    | _ => none)

/-- The effect of one line on the connection. -/
inductive LineEffect where
  | fault (f : Fault)
  | nothing
  | signal (e : Event)
  | reply (msg : QString)

/-- A line effect applied to a connection. -/
def LineEffect.run (eff : LineEffect) (c : IrcConnection) : Except Fault IrcConnection :=
  match eff with
  | LineEffect.fault f => Except.error f
  | LineEffect.nothing => Except.ok c
  | LineEffect.signal e => Except.ok (emit c e)
  | LineEffect.reply msg => Except.ok (sendRawMessage c msg)

/-- The transport reports the close of the connection: the socket is
unconnected and its disconnected() signal, connected to onDisconnected in the
constructor, runs that slot once. -/
def transportClosed (c : IrcConnection) : IrcConnection :=
  onDisconnected { c with m_socket := { c.m_socket with phase := SocketPhase.unconnected } }

/-- The last character of the string is white space. -/
def endsWithSpace (s : QString) : Bool :=
  match s.getLast? with
  | some c => isSpace c
  | none => false

/-! ## Effects of one line -/

theorem emit_setBuf (c : IrcConnection) (b : QByteArray) (e : Event) :
    emit (setBuf c b) e = setBuf (emit c e) b := rfl

theorem qDebug_setBuf (c : IrcConnection) (b : QByteArray) (items : List QString) :
    qDebug (setBuf c b) items = setBuf (qDebug c items) b := rfl

theorem sendRawMessage_setBuf (c : IrcConnection) (b : QByteArray) (msg : QString) :
    sendRawMessage (setBuf c b) msg = setBuf (sendRawMessage c msg) b := by
  unfold sendRawMessage
  have h : isConnected (setBuf c b) = isConnected c := rfl
  rw [h]
  split <;> rfl

/-- The effect of a numeric reply does not depend on the connection: a fault,
nothing, or one signal. -/
theorem handleNumericReply_effect (code : Int) (params : QStringList) :
    (∃ f, ∀ c, handleNumericReply c code params = Except.error f)
    ∨ (∀ c, handleNumericReply c code params = Except.ok c)
    ∨ (∃ e, ∀ c, handleNumericReply c code params = Except.ok (emit c e)) := by
  unfold handleNumericReply
  split
  · exact Or.inr (Or.inr ⟨_, fun c => rfl⟩)
  split
  · split
    · cases h : index params 1 with
      | error f => exact Or.inl ⟨f, fun c => rfl⟩
      | ok ch => exact Or.inr (Or.inr ⟨_, fun c => rfl⟩)
    · exact Or.inr (Or.inl fun c => rfl)
  split
  · split
    · cases h : index params 2 with
      | error f => exact Or.inl ⟨f, fun c => rfl⟩
      | ok ch => exact Or.inr (Or.inr ⟨_, fun c => rfl⟩)
    · exact Or.inr (Or.inl fun c => rfl)
  split
  · exact Or.inr (Or.inl fun c => rfl)
  · exact Or.inr (Or.inr ⟨_, fun c => rfl⟩)

theorem dispatch_effect (m : ParsedMessage) :
    ∃ eff : LineEffect, ∀ c, dispatch c m = eff.run c := by
  unfold dispatch
  split
  · exact ⟨LineEffect.reply _, fun c => rfl⟩
  split
  · rename_i code hcode
    rcases handleNumericReply_effect code
        (if (!m.trailing.isEmpty) = true then m.parts ++ [m.trailing] else m.parts) with
      ⟨f, h⟩ | h | ⟨e, h⟩
    · exact ⟨LineEffect.fault f, fun c => h c⟩
    · exact ⟨LineEffect.nothing, fun c => h c⟩
    · exact ⟨LineEffect.signal e, fun c => h c⟩
  split
  · split
    · cases h : index m.parts 0 with
      | error f => exact ⟨LineEffect.fault f, fun c => rfl⟩
      | ok t => exact ⟨LineEffect.signal _, fun c => rfl⟩
    · exact ⟨LineEffect.nothing, fun c => rfl⟩
  split
  · exact ⟨LineEffect.signal _, fun c => rfl⟩
  split
  · split
    · cases h : index m.parts 0 with
      | error f => exact ⟨LineEffect.fault f, fun c => rfl⟩
      | ok t => exact ⟨LineEffect.signal _, fun c => rfl⟩
    · exact ⟨LineEffect.signal _, fun c => rfl⟩
  split
  · split
    · cases h : index m.parts 0 with
      | error f => exact ⟨LineEffect.fault f, fun c => rfl⟩
      | ok t => exact ⟨LineEffect.signal _, fun c => rfl⟩
    · exact ⟨LineEffect.nothing, fun c => rfl⟩
  split
  · split
    · cases h : index m.parts 0 with
      | error f => exact ⟨LineEffect.fault f, fun c => rfl⟩
      | ok t => exact ⟨LineEffect.signal _, fun c => rfl⟩
    · exact ⟨LineEffect.signal _, fun c => rfl⟩
  · exact ⟨LineEffect.nothing, fun c => rfl⟩

/-- What parseIrcMessage does with a line does not depend on the connection. -/
theorem parseIrcMessage_effect (line : QString) :
    ∃ eff : LineEffect, ∀ c, parseIrcMessage c line = eff.run c := by
  unfold parseIrcMessage
  cases parseLine line with
  | none => exact ⟨LineEffect.nothing, fun c => rfl⟩
  | some m => exact dispatch_effect m

theorem setBuf_self (c : IrcConnection) : setBuf c c.m_socket.readBuffer = c := rfl

theorem setBuf_setBuf (c : IrcConnection) (a b : QByteArray) :
    setBuf (setBuf c a) b = setBuf c b := rfl

theorem setBuf_readBuffer (c : IrcConnection) (b : QByteArray) :
    (setBuf c b).m_socket.readBuffer = b := rfl

theorem run_setBuf (eff : LineEffect) (c : IrcConnection) (b : QByteArray) :
    eff.run (setBuf c b) = (eff.run c).map (fun c1 => setBuf c1 b) := by
  cases eff with
  | fault f => rfl
  | nothing => rfl
  | signal e => rfl
  | reply msg =>
    simp only [LineEffect.run, sendRawMessage_setBuf]
    rfl

theorem sendRawMessage_handedLines (c : IrcConnection) (msg : QString) :
    handedLines (sendRawMessage c msg) = handedLines c := by
  unfold sendRawMessage
  split
  · simp [handedLines, qWarning]
  · have h : (qs ">> " = qs "<< ") = False := by decide
    simp [handedLines, qDebug, h]

theorem run_handedLines (eff : LineEffect) (c c1 : IrcConnection)
    (h : eff.run c = Except.ok c1) : handedLines c1 = handedLines c := by
  cases eff with
  | fault f => cases h
  | nothing => cases h; rfl
  | signal e => cases h; rfl
  | reply msg => cases h; exact sendRawMessage_handedLines c msg

theorem handleBytes_setBuf (fromUtf8 : QByteArray → QString) (c : IrcConnection)
    (b bytes : QByteArray) :
    handleBytes fromUtf8 (setBuf c b) bytes
      = (handleBytes fromUtf8 c bytes).map (fun c1 => setBuf c1 b) := by
  obtain ⟨eff, h⟩ := parseIrcMessage_effect (trimmed (fromUtf8 bytes))
  by_cases hne : (!(trimmed (fromUtf8 bytes)).isEmpty) = true
  · simp only [handleBytes, hne, if_true]
    rw [qDebug_setBuf, h, h, run_setBuf]
  · simp only [handleBytes, hne, if_false]
    rfl

theorem handleBytes_handedLines (fromUtf8 : QByteArray → QString) (c c1 : IrcConnection)
    (bytes : QByteArray) (h : handleBytes fromUtf8 c bytes = Except.ok c1) :
    handedLines c1 = handedLines c
      ++ [trimmed (fromUtf8 bytes)].filter (fun l => !l.isEmpty) := by
  obtain ⟨eff, he⟩ := parseIrcMessage_effect (trimmed (fromUtf8 bytes))
  by_cases hne : (!(trimmed (fromUtf8 bytes)).isEmpty) = true
  · simp only [handleBytes, hne, if_true] at h
    rw [he] at h
    rw [run_handedLines eff _ _ h]
    simp [handedLines, qDebug, hne]
  · simp only [handleBytes, hne, if_false] at h
    cases h
    simp [hne]

/-! ## Framing of the byte stream -/

theorem frameBytes_no_lf (buf : QByteArray) (h : 10 ∉ buf) : frameBytes buf = ([], buf) := by
  induction buf with
  | nil => rfl
  | cons b bs ih =>
    have hb : b ≠ 10 := fun e => h (by simp [e])
    have hbs : 10 ∉ bs := fun e => h (by simp [e])
    simp [frameBytes, hb, ih hbs]

theorem frameBytes_line (body rest : QByteArray) (h : 10 ∉ body) :
    frameBytes (body ++ 10 :: rest)
      = ((body ++ [10]) :: (frameBytes rest).1, (frameBytes rest).2) := by
  induction body with
  | nil => simp [frameBytes]
  | cons b bs ih =>
    have hb : b ≠ 10 := fun e => h (by simp [e])
    have hbs : 10 ∉ bs := fun e => h (by simp [e])
    simp [frameBytes, hb, ih hbs]

theorem frameBytes_append (u v : QByteArray) :
    frameBytes (u ++ v)
      = ((frameBytes u).1 ++ (frameBytes ((frameBytes u).2 ++ v)).1,
         (frameBytes ((frameBytes u).2 ++ v)).2) := by
  induction u with
  | nil => simp [frameBytes]
  | cons b bs ih =>
    by_cases hb : b = 10
    · simp [frameBytes, hb, ih]
    · cases hl : (frameBytes bs).1 with
      | nil => simp [frameBytes, hb, ih, hl]
      | cons l ls => simp [frameBytes, hb, ih, hl]

theorem frameBytes_rest_no_lf (buf : QByteArray) : 10 ∉ (frameBytes buf).2 := by
  induction buf with
  | nil => simp [frameBytes]
  | cons b bs ih =>
    by_cases hb : b = 10
    · simpa [frameBytes, hb] using ih
    · cases hl : (frameBytes bs).1 with
      | nil =>
        simp only [frameBytes, hb, hl, if_false]
        intro hmem
        rcases List.mem_cons.mp hmem with e | e
        · exact hb e.symm
        · exact ih e
      | cons l ls => simpa [frameBytes, hb, hl] using ih

theorem first_lf (buf : QByteArray) (h : 10 ∈ buf) :
    ∃ body rest, buf = body ++ 10 :: rest ∧ 10 ∉ body := by
  induction buf with
  | nil => cases h
  | cons b bs ih =>
    by_cases hb : b = 10
    · exact ⟨[], bs, by simp [hb], by simp⟩
    · have hbs : 10 ∈ bs := by
        rcases List.mem_cons.mp h with e | e
        · exact absurd e.symm hb
        · exact e
      obtain ⟨body, rest, he, hn⟩ := ih hbs
      refine ⟨b :: body, rest, by simp [he], ?_⟩
      intro hmem
      rcases List.mem_cons.mp hmem with e | e
      · exact hb e.symm
      · exact hn e

theorem readLine_line (s : QTcpSocket) (body rest : QByteArray)
    (hbuf : s.readBuffer = body ++ 10 :: rest) (h : 10 ∉ body) :
    s.readLine = (body ++ [10], { s with readBuffer := rest }) := by
  have hp : ∀ a ∈ body, (a != 10) = true := by
    intro a ha
    simp only [bne_iff_ne, ne_eq]
    intro e
    exact h (e ▸ ha)
  simp [QTcpSocket.readLine, hbuf, List.takeWhile_append_of_pos hp,
    List.dropWhile_append_of_pos hp]

/-! ## C1: out-of-range access in the JOIN and NICK branches -/

/-- C1 (fails on the code): the line "JOIN" is non-empty and trimmed, it parses
to the command JOIN with no parameter and no trailing text, and the JOIN branch
then reads `parts[0]` of the empty list: parseIrcMessage faults with an
out-of-range access on every connection.  The line "NICK" does the same, while
"PRIVMSG" and "PART", whose branches test `parts.size() >= 1`, are dropped
without a fault. -/
theorem C1_join_without_parameter_faults :
    qs "JOIN" ≠ [] ∧ trimmed (qs "JOIN") = qs "JOIN"
    ∧ parseLine (qs "JOIN")
        = some { pfx := [], command := qs "JOIN", parts := [], trailing := [] }
    ∧ (∀ c, parseIrcMessage c (qs "JOIN") = Except.error Fault.indexOutOfRange)
    ∧ (∀ c, parseIrcMessage c (qs "NICK") = Except.error Fault.indexOutOfRange)
    ∧ (∀ c, parseIrcMessage c (qs "PRIVMSG") = Except.ok c)
    ∧ (∀ c, parseIrcMessage c (qs "PART") = Except.ok c) := by
  refine ⟨by decide, by decide, by decide, fun c => rfl, fun c => rfl, fun c => rfl,
    fun c => rfl⟩

/-! ## C2: line reassembly -/

theorem onReadyReadLoop_eq (fromUtf8 : QByteArray → QString) (n : Nat) :
    ∀ c : IrcConnection, c.m_socket.readBuffer.length ≤ n →
      onReadyReadLoop fromUtf8 n c
        = (frameBytes c.m_socket.readBuffer).1.foldlM (handleBytes fromUtf8)
            (setBuf c (frameBytes c.m_socket.readBuffer).2) := by
  induction n with
  | zero =>
    intro c hlen
    have hnil : c.m_socket.readBuffer = [] := List.length_eq_zero.mp (Nat.le_zero.mp hlen)
    have hc : setBuf c [] = c := by rw [← hnil]; rfl
    simp [onReadyReadLoop, hnil, frameBytes, hc]
  | succ n ih =>
    intro c hlen
    by_cases hcan : c.m_socket.canReadLine = true
    · have hmem : 10 ∈ c.m_socket.readBuffer := by
        simpa [QTcpSocket.canReadLine] using hcan
      obtain ⟨body, rest, hbuf, hbody⟩ := first_lf _ hmem
      have hread := readLine_line c.m_socket body rest hbuf hbody
      have hstep : onReadyReadLoop fromUtf8 (n + 1) c
          = handleBytes fromUtf8 (setBuf c rest) (body ++ [10])
              >>= onReadyReadLoop fromUtf8 n := by
        by_cases hne : (!(trimmed (fromUtf8 (body ++ [10]))).isEmpty) = true
        · simp only [onReadyReadLoop, hcan, if_true, hread, handleBytes, hne]
          rfl
        · simp only [onReadyReadLoop, hcan, if_true, hread, handleBytes, hne, if_false]
          rfl
      rw [hstep, hbuf, frameBytes_line body rest hbody, List.foldlM_cons,
        handleBytes_setBuf, handleBytes_setBuf]
      cases hres : handleBytes fromUtf8 c (body ++ [10]) with
      | error f => rfl
      | ok c3 =>
        have hlen3 : (setBuf c3 rest).m_socket.readBuffer.length ≤ n := by
          rw [setBuf_readBuffer]
          rw [hbuf] at hlen
          simp at hlen
          omega
        show onReadyReadLoop fromUtf8 n (setBuf c3 rest) = _
        rw [ih _ hlen3, setBuf_readBuffer, setBuf_setBuf]
        rfl
    · have hmem : 10 ∉ c.m_socket.readBuffer := by
        simpa [QTcpSocket.canReadLine] using hcan
      simp [onReadyReadLoop, hcan, frameBytes_no_lf _ hmem, setBuf_self]

theorem foldlM_handleBytes_setBuf (fromUtf8 : QByteArray → QString) (ls : List QByteArray) :
    ∀ (c : IrcConnection) (b : QByteArray),
      ls.foldlM (handleBytes fromUtf8) (setBuf c b)
        = (ls.foldlM (handleBytes fromUtf8) c).map (fun c1 => setBuf c1 b) := by
  induction ls with
  | nil => intro c b; rfl
  | cons l ls ih =>
    intro c b
    rw [List.foldlM_cons, List.foldlM_cons, handleBytes_setBuf]
    cases hres : handleBytes fromUtf8 c l with
    | error f => rfl
    | ok c3 => exact ih c3 b

theorem foldlM_handleBytes_readBuffer (fromUtf8 : QByteArray → QString)
    (ls : List QByteArray) (c c1 : IrcConnection)
    (h : ls.foldlM (handleBytes fromUtf8) c = Except.ok c1) :
    c1.m_socket.readBuffer = c.m_socket.readBuffer := by
  have hf := foldlM_handleBytes_setBuf fromUtf8 ls c c.m_socket.readBuffer
  rw [setBuf_self, h] at hf
  have hc : c1 = setBuf c1 c.m_socket.readBuffer := by
    injection hf
  rw [hc]
  rfl

theorem foldlM_handleBytes_handedLines (fromUtf8 : QByteArray → QString)
    (ls : List QByteArray) :
    ∀ (c c1 : IrcConnection), ls.foldlM (handleBytes fromUtf8) c = Except.ok c1 →
      handedLines c1 = handedLines c
        ++ (ls.map (fun l => trimmed (fromUtf8 l))).filter (fun l => !l.isEmpty) := by
  induction ls with
  | nil =>
    intro c c1 h
    cases h
    simp
  | cons l ls ih =>
    intro c c1 h
    rw [List.foldlM_cons] at h
    cases hres : handleBytes fromUtf8 c l with
    | error f => rw [hres] at h; cases h
    | ok c3 =>
      rw [hres] at h
      rw [ih c3 c1 h, handleBytes_handedLines fromUtf8 c c3 l hres]
      simp [List.filter_cons]
      split <;> simp

theorem feed_eq (fromUtf8 : QByteArray → QString) (c : IrcConnection) (chunk : QByteArray) :
    feed fromUtf8 c chunk
      = (frameBytes (c.m_socket.readBuffer ++ chunk)).1.foldlM (handleBytes fromUtf8)
          (setBuf c (frameBytes (c.m_socket.readBuffer ++ chunk)).2) := by
  have h := onReadyReadLoop_eq fromUtf8 (c.m_socket.readBuffer ++ chunk).length
    (setBuf c (c.m_socket.readBuffer ++ chunk)) (le_refl _)
  rw [setBuf_readBuffer, setBuf_setBuf] at h
  exact h

/-- Feeding two chunks one after the other is feeding their concatenation. -/
theorem feed_feed (fromUtf8 : QByteArray → QString) (c : IrcConnection) (a b : QByteArray) :
    (feed fromUtf8 c a >>= fun c1 => feed fromUtf8 c1 b) = feed fromUtf8 c (a ++ b) := by
  rw [feed_eq fromUtf8 c (a ++ b), ← List.append_assoc, frameBytes_append, feed_eq fromUtf8 c a,
    List.foldlM_append, foldlM_handleBytes_setBuf, foldlM_handleBytes_setBuf]
  cases hres : (frameBytes (c.m_socket.readBuffer ++ a)).1.foldlM (handleBytes fromUtf8) c with
  | error f => rfl
  | ok g =>
    show feed fromUtf8 (setBuf g _) b = _
    rw [feed_eq, setBuf_readBuffer, setBuf_setBuf]
    rfl

theorem feedAll_cons (fromUtf8 : QByteArray → QString) (chunks : List QByteArray) :
    ∀ (c : IrcConnection) (chunk : QByteArray),
      feedAll fromUtf8 c (chunk :: chunks) = feed fromUtf8 c (chunk ++ chunks.flatten) := by
  induction chunks with
  | nil =>
    intro c chunk
    simp only [feedAll, List.foldlM_cons, List.foldlM_nil, List.flatten, List.append_nil]
    cases feed fromUtf8 c chunk <;> rfl
  | cons d ds ih =>
    intro c chunk
    have hstep : feedAll fromUtf8 c (chunk :: d :: ds)
        = (feed fromUtf8 c chunk >>= fun c1 => feedAll fromUtf8 c1 (d :: ds)) := by
      simp only [feedAll, List.foldlM_cons]
    rw [hstep]
    simp only [ih]
    rw [feed_feed]
    simp [List.flatten]

/-- The framing cuts the byte sequence without losing or reordering a byte. -/
theorem frameBytes_flatten (buf : QByteArray) :
    (frameBytes buf).1.flatten ++ (frameBytes buf).2 = buf := by
  induction buf with
  | nil => rfl
  | cons b bs ih =>
    by_cases hb : b = 10
    · simp [frameBytes, hb, ih]
    · cases hl : (frameBytes bs).1 with
      | nil =>
        rw [hl] at ih
        simp at ih
        simp [frameBytes, hb, hl, ih]
      | cons l ls =>
        rw [hl] at ih
        simp at ih
        simp [frameBytes, hb, hl, ih]

/-- Every framed line ends with its line feed and holds no other one. -/
theorem frameBytes_lines (buf : QByteArray) :
    ∀ l ∈ (frameBytes buf).1, ∃ body, l = body ++ [10] ∧ 10 ∉ body := by
  induction buf with
  | nil => intro l hl; cases hl
  | cons b bs ih =>
    intro l hl
    by_cases hb : b = 10
    · simp only [frameBytes, hb, if_true] at hl
      rcases List.mem_cons.mp hl with e | e
      · exact ⟨[], by simp [e], by simp⟩
      · exact ih l e
    · cases hls : (frameBytes bs).1 with
      | nil => simp [frameBytes, hb, hls] at hl
      | cons l0 ls =>
        simp only [frameBytes, hb, hls, if_false] at hl
        rw [hls] at ih
        rcases List.mem_cons.mp hl with e | e
        · obtain ⟨body, he, hn⟩ := ih l0 (List.mem_cons_self _ _)
          refine ⟨b :: body, by simp [e, he], ?_⟩
          intro hmem
          rcases List.mem_cons.mp hmem with e2 | e2
          · exact hb e2.symm
          · exact hn e2
        · exact ih l (List.mem_cons_of_mem _ e)

/-- C2: line reassembly is split-invariant.  Feeding the chunks
`chunk :: chunks` one at a time (each appended to the socket's buffer, then
onReadyRead) ends exactly as feeding their concatenation in one call does: the
same fault, or the same connection, diagnostic trace of handed lines included.
When the run completes, the lines handed to parseIrcMessage are, in order, the
non-empty trimmed decodings of the complete lines of the buffered bytes
followed by the stream, and the bytes after the last line feed stay in the
buffer, which then holds no line feed. -/
theorem C2_reassembly_split_invariant (fromUtf8 : QByteArray → QString)
    (c : IrcConnection) (chunk : QByteArray) (chunks : List QByteArray) :
    feedAll fromUtf8 c (chunk :: chunks) = feed fromUtf8 c (chunk ++ chunks.flatten)
    ∧ ∀ c1, feedAll fromUtf8 c (chunk :: chunks) = Except.ok c1 →
        handedLines c1 = handedLines c
          ++ linesOf fromUtf8 (c.m_socket.readBuffer ++ (chunk ++ chunks.flatten))
        ∧ c1.m_socket.readBuffer
            = (frameBytes (c.m_socket.readBuffer ++ (chunk ++ chunks.flatten))).2
        ∧ c1.m_socket.canReadLine = false := by
  refine ⟨feedAll_cons fromUtf8 chunks c chunk, ?_⟩
  intro c1 h
  rw [feedAll_cons, feed_eq] at h
  have hbuf := foldlM_handleBytes_readBuffer fromUtf8 _ _ _ h
  rw [setBuf_readBuffer] at hbuf
  have hlines := foldlM_handleBytes_handedLines fromUtf8 _ _ _ h
  refine ⟨hlines, hbuf, ?_⟩
  have hno := frameBytes_rest_no_lf (c.m_socket.readBuffer ++ (chunk ++ chunks.flatten))
  rw [← hbuf] at hno
  simpa [QTcpSocket.canReadLine] using hno

/-- C2 at a concrete stream: two lines and an unterminated rest, cut inside
the first line and inside the line terminator of the second. -/
theorem C2_reassembly_split_invariant_witness :
    feedAll asciiDecode connectedConn
        [toUtf8 (qs "NOTICE a :x\r\nNOT"), toUtf8 (qs "ICE b :y\r"), toUtf8 (qs "\nNOTICE c")]
      = Except.ok (setBuf
          { connectedConn with
            emitted := [Event.noticeReceived [] (qs "x"), Event.noticeReceived [] (qs "y")],
            log := [LogEntry.debug [qs "<< ", qs "NOTICE a :x"],
                    LogEntry.debug [qs "<< ", qs "NOTICE b :y"]] }
          (toUtf8 (qs "NOTICE c")))
    ∧ feedAll asciiDecode connectedConn
        [toUtf8 (qs "NOTICE a :x\r\nNOT"), toUtf8 (qs "ICE b :y\r"), toUtf8 (qs "\nNOTICE c")]
      = feed asciiDecode connectedConn
          (toUtf8 (qs "NOTICE a :x\r\nNOT")
            ++ [toUtf8 (qs "ICE b :y\r"), toUtf8 (qs "\nNOTICE c")].flatten)
    ∧ linesOf asciiDecode (toUtf8 (qs "NOTICE a :x\r\nNOTICE b :y\r\nNOTICE c"))
      = [qs "NOTICE a :x", qs "NOTICE b :y"]
    ∧ (frameBytes (toUtf8 (qs "NOTICE a :x\r\nNOTICE b :y\r\nNOTICE c"))).2
      = toUtf8 (qs "NOTICE c")
    ∧ (handedLines (setBuf
          { connectedConn with
            emitted := [Event.noticeReceived [] (qs "x"), Event.noticeReceived [] (qs "y")],
            log := [LogEntry.debug [qs "<< ", qs "NOTICE a :x"],
                    LogEntry.debug [qs "<< ", qs "NOTICE b :y"]] }
          (toUtf8 (qs "NOTICE c")))
        = handedLines connectedConn
          ++ linesOf asciiDecode (connectedConn.m_socket.readBuffer
              ++ (toUtf8 (qs "NOTICE a :x\r\nNOT")
                ++ [toUtf8 (qs "ICE b :y\r"), toUtf8 (qs "\nNOTICE c")].flatten))
      ∧ (setBuf
          { connectedConn with
            emitted := [Event.noticeReceived [] (qs "x"), Event.noticeReceived [] (qs "y")],
            log := [LogEntry.debug [qs "<< ", qs "NOTICE a :x"],
                    LogEntry.debug [qs "<< ", qs "NOTICE b :y"]] }
          (toUtf8 (qs "NOTICE c"))).m_socket.readBuffer
        = (frameBytes (connectedConn.m_socket.readBuffer
              ++ (toUtf8 (qs "NOTICE a :x\r\nNOT")
                ++ [toUtf8 (qs "ICE b :y\r"), toUtf8 (qs "\nNOTICE c")].flatten))).2
      ∧ (setBuf
          { connectedConn with
            emitted := [Event.noticeReceived [] (qs "x"), Event.noticeReceived [] (qs "y")],
            log := [LogEntry.debug [qs "<< ", qs "NOTICE a :x"],
                    LogEntry.debug [qs "<< ", qs "NOTICE b :y"]] }
          (toUtf8 (qs "NOTICE c"))).m_socket.canReadLine = false) :=
  ⟨by decide,
   (C2_reassembly_split_invariant asciiDecode connectedConn
      (toUtf8 (qs "NOTICE a :x\r\nNOT")) [toUtf8 (qs "ICE b :y\r"), toUtf8 (qs "\nNOTICE c")]).1,
   by decide, by decide,
   (C2_reassembly_split_invariant asciiDecode connectedConn
      (toUtf8 (qs "NOTICE a :x\r\nNOT")) [toUtf8 (qs "ICE b :y\r"), toUtf8 (qs "\nNOTICE c")]).2
      _ (by decide)⟩

/-! ## Strings: split, join, trimmed, mid -/

theorem split_ne_nil (sep : Char) (s : QString) : split sep s ≠ [] := by
  cases s with
  | nil => simp [split]
  | cons c cs =>
    by_cases h : c = sep
    · simp [split, h]
    · cases hs : split sep cs <;> simp [split, h, hs]

theorem split_cons_ne (sep c : Char) (s : QString) (h : c ≠ sep) :
    ∃ w ws, split sep s = w :: ws ∧ split sep (c :: s) = (c :: w) :: ws := by
  cases hs : split sep s with
  | nil => exact absurd hs (split_ne_nil sep s)
  | cons w ws => exact ⟨w, ws, rfl, by simp [split, h, hs]⟩

theorem split_no_sep (sep : Char) (s : QString) (h : sep ∉ s) : split sep s = [s] := by
  induction s with
  | nil => rfl
  | cons c cs ih =>
    have hc : c ≠ sep := fun e => h (by simp [e])
    have hcs : sep ∉ cs := fun e => h (by simp [e])
    simp [split, hc, ih hcs]

theorem split_append_sep (sep : Char) (a b : QString) (h : sep ∉ a) :
    split sep (a ++ sep :: b) = a :: split sep b := by
  induction a with
  | nil => simp [split]
  | cons c cs ih =>
    have hc : c ≠ sep := fun e => h (by simp [e])
    have hcs : sep ∉ cs := fun e => h (by simp [e])
    simp [split, hc, ih hcs]

theorem join_cons_cons (sep : Char) (w v : QString) (vs : QStringList) :
    join sep (w :: v :: vs) = w ++ sep :: join sep (v :: vs) := rfl

theorem join_split (sep : Char) (s : QString) : join sep (split sep s) = s := by
  induction s with
  | nil => rfl
  | cons c cs ih =>
    cases hs : split sep cs with
    | nil => exact absurd hs (split_ne_nil sep cs)
    | cons w ws =>
      rw [hs] at ih
      by_cases h : c = sep
      · simp [split, h, hs, join_cons_cons, ih]
      · simp only [split, h, hs, if_false]
        cases ws with
        | nil =>
          simp only [join] at ih ⊢
          rw [ih]
        | cons v vs =>
          rw [join_cons_cons] at ih ⊢
          rw [← ih]
          rfl

theorem endsWithSpace_append_colon (a text : QString) (h : endsWithSpace text = false) :
    endsWithSpace (a ++ ':' :: text) = false := by
  unfold endsWithSpace at h ⊢
  rw [List.getLast?_append, List.getLast?_cons]
  cases ht : text.getLast? with
  | none => simp; decide
  | some c =>
    rw [ht] at h
    simpa using h

theorem trimmed_cons (a : Char) (t : QString) (ha : isSpace a = false)
    (hend : endsWithSpace (a :: t) = false) : trimmed (a :: t) = a :: t := by
  have hne : a :: t ≠ [] := by simp
  have hlast := List.dropLast_append_getLast hne
  have hsp : isSpace ((a :: t).getLast hne) = false := by
    unfold endsWithSpace at hend
    rw [List.getLast?_eq_getLast _ hne] at hend
    exact hend
  unfold trimmed
  rw [List.dropWhile_cons_of_neg (by simp [ha])]
  conv =>
    lhs
    rw [← hlast]
  rw [List.reverse_append, List.reverse_singleton, List.singleton_append,
    List.dropWhile_cons_of_neg (by simp [hsp]), List.reverse_cons, List.reverse_reverse]
  exact hlast

theorem indexOf_first (a b : QString) (c : Char) (h : c ∉ a) :
    indexOf (a ++ c :: b) c = (a.length : Int) := by
  have hp : ∀ x ∈ a, (x != c) = true := by
    intro x hx
    simp only [bne_iff_ne, ne_eq]
    intro e
    exact h (e ▸ hx)
  simp [indexOf, List.takeWhile_append_of_pos hp]

theorem mid_natCast {α : Type} (l : List α) (p n : Nat) (h : p + n ≤ l.length) :
    mid l (p : Int) (n : Int) = (l.drop p).take n := by
  simp only [mid]
  rw [if_neg (by omega), if_neg (by omega), if_neg (by omega)]
  simp

theorem midFrom_natCast {α : Type} (l : List α) (p : Nat) (h : p ≤ l.length) :
    midFrom l (p : Int) = l.drop p := by
  simp only [midFrom, mid]
  rw [if_neg (by omega), if_neg (by omega), if_pos (by omega)]
  simp

theorem extractNickname_nick (nick detail : QString) (hne : nick ≠ [])
    (hbang : '!' ∉ nick) : extractNickname (nick ++ '!' :: detail) = nick := by
  have hpos : 0 < nick.length := List.length_pos.mpr hne
  simp only [extractNickname, indexOf_first nick detail '!' hbang]
  rw [if_pos (by omega)]
  simp only [left]
  rw [if_neg (by simp)]
  simp

theorem extractTrailing_marker (ps : QStringList) (w : QString) (ws : QStringList)
    (hps : ∀ p ∈ ps, startsWith p ':' = false) :
    extractTrailing (ps ++ (':' :: w) :: ws) = (ps, (join ' ' ((':' :: w) :: ws)).drop 1) := by
  have hidx : (ps ++ (':' :: w) :: ws).findIdx? (fun p => startsWith p ':')
      = some ps.length := by
    induction ps with
    | nil => simp [List.findIdx?_cons, startsWith]
    | cons p ps ih =>
      have hp : startsWith p ':' = false := hps p (List.mem_cons_self _ _)
      have ih2 := ih (fun q hq => hps q (List.mem_cons_of_mem _ hq))
      simp [List.findIdx?_cons, hp, ih2]
  simp only [extractTrailing, hidx]
  have h1 : mid (ps ++ (':' :: w) :: ws) 0 (ps.length : Int) = ps := by
    have := mid_natCast (ps ++ (':' :: w) :: ws) 0 ps.length (by simp)
    simpa using this
  have h2 : midFrom (ps ++ (':' :: w) :: ws) (ps.length : Int) = (':' :: w) :: ws := by
    rw [midFrom_natCast _ _ (by simp)]
    simp
  have h3 : ∀ t : QString, t ≠ [] → midFrom t 1 = t.drop 1 := by
    intro t ht
    have hl : 1 ≤ t.length := List.length_pos.mpr ht
    have := midFrom_natCast t 1 hl
    simpa using this
  rw [h1, h2, h3]
  cases ws <;> simp [join]

/-- The parse step on a line with a prefix: the prefix is the text between the
colon and the first space, the rest is trimmed and split. -/
theorem parseLine_prefixed (pfx rest : QString) (hp : ' ' ∉ pfx) :
    parseLine (':' :: pfx ++ ' ' :: rest)
      = match split ' ' (trimmed rest) with
        | [] => none
        | command :: parts =>
          some { pfx := pfx, command := command, parts := (extractTrailing parts).1,
                 trailing := (extractTrailing parts).2 } := by
  have hcolon : (' ' : Char) ∉ (':' :: pfx) := by
    intro hmem
    rcases List.mem_cons.mp hmem with e | e
    · exact absurd e (by decide)
    · exact hp e
  have hidx : indexOf (':' :: pfx ++ ' ' :: rest) ' ' = ((pfx.length + 1 : Nat) : Int) := by
    have := indexOf_first (':' :: pfx) rest ' ' hcolon
    simpa using this
  have hmid1 : mid (':' :: pfx ++ ' ' :: rest) 1 (((pfx.length + 1 : Nat) : Int) - 1) = pfx := by
    have hcast : (((pfx.length + 1 : Nat) : Int) - 1) = (pfx.length : Int) := by
      push_cast
      omega
    rw [hcast]
    have := mid_natCast (':' :: pfx ++ ' ' :: rest) 1 pfx.length (by simp; omega)
    simpa using this
  have hmid2 : midFrom (':' :: pfx ++ ' ' :: rest) (((pfx.length + 1 : Nat) : Int) + 1) = rest := by
    have hcast : (((pfx.length + 1 : Nat) : Int) + 1) = ((pfx.length + 2 : Nat) : Int) := by
      push_cast
      omega
    rw [hcast, midFrom_natCast _ _ (by simp)]
    simp
  have hstart : startsWith (':' :: pfx ++ ' ' :: rest) ':' = true := rfl
  simp only [parseLine, hstart, if_true, hidx, hmid1, hmid2]

theorem join_cons_char (sep c : Char) (w : QString) (ws : QStringList) :
    join sep ((c :: w) :: ws) = c :: join sep (w :: ws) := by
  cases ws <;> rfl

/-- The split of a text that begins with a colon, and what joining it back and
dropping the colon gives. -/
theorem split_colon_text (text : QString) :
    ∃ w ws, split ' ' (':' :: text) = (':' :: w) :: ws
      ∧ (join ' ' ((':' :: w) :: ws)).drop 1 = text := by
  obtain ⟨w, ws, hs, hc⟩ := split_cons_ne ' ' ':' text (by decide)
  refine ⟨w, ws, hc, ?_⟩
  rw [join_cons_char, ← hs, join_split]
  rfl

/-- The parse step on `:<prefix> <command> <p1> ... <pk> :<text>`. -/
theorem parseLine_shape (pfx command text : QString) (ps : QStringList) (a : Char)
    (cmd : QString) (hcmd : command = a :: cmd) (ha : isSpace a = false)
    (hpfx : ' ' ∉ pfx) (hcommand : ' ' ∉ command)
    (hps : ∀ p ∈ ps, ' ' ∉ p ∧ startsWith p ':' = false)
    (htext : endsWithSpace text = false) :
    parseLine (':' :: pfx ++ ' ' :: (command ++ ' ' ::
        (ps.foldr (fun p acc => p ++ ' ' :: acc) (':' :: text))))
      = some { pfx := pfx, command := command, parts := ps, trailing := text } := by
  have hbody : ∀ qs1 : QStringList, (∀ p ∈ qs1, ' ' ∉ p ∧ startsWith p ':' = false) →
      ∃ w ws, split ' ' (qs1.foldr (fun p acc => p ++ ' ' :: acc) (':' :: text))
          = qs1 ++ (':' :: w) :: ws
        ∧ (join ' ' ((':' :: w) :: ws)).drop 1 = text := by
    intro qs1
    induction qs1 with
    | nil =>
      intro _
      obtain ⟨w, ws, h1, h2⟩ := split_colon_text text
      exact ⟨w, ws, by simpa using h1, h2⟩
    | cons p ps1 ih =>
      intro hall
      obtain ⟨w, ws, h1, h2⟩ := ih (fun q hq => hall q (List.mem_cons_of_mem _ hq))
      refine ⟨w, ws, ?_, h2⟩
      simp only [List.foldr_cons, List.cons_append]
      rw [split_append_sep ' ' p _ (hall p (List.mem_cons_self _ _)).1, h1]
  have hend : ∀ qs1 : QStringList, ∃ front,
      qs1.foldr (fun p acc => p ++ ' ' :: acc) (':' :: text) = front ++ ':' :: text := by
    intro qs1
    induction qs1 with
    | nil => exact ⟨[], rfl⟩
    | cons p ps1 ih =>
      obtain ⟨front, hf⟩ := ih
      exact ⟨p ++ ' ' :: front, by simp [hf]⟩
  obtain ⟨front, hfront⟩ := hend ps
  have htrim : trimmed (command ++ ' ' ::
      (ps.foldr (fun p acc => p ++ ' ' :: acc) (':' :: text)))
      = command ++ ' ' :: (ps.foldr (fun p acc => p ++ ' ' :: acc) (':' :: text)) := by
    rw [hcmd, List.cons_append]
    apply trimmed_cons _ _ ha
    rw [hfront]
    have := endsWithSpace_append_colon (a :: cmd ++ ' ' :: front) text htext
    simpa using this
  obtain ⟨w, ws, hsplit, hjoin⟩ := hbody ps hps
  rw [parseLine_prefixed pfx _ hpfx, htrim, split_append_sep ' ' command _ hcommand, hsplit]
  simp only
  rw [extractTrailing_marker ps w ws (fun p hp => (hps p hp).2), hjoin]

theorem dispatch_privmsg (c : IrcConnection) (pfx target text : QString) :
    dispatch c { pfx := pfx, command := qs "PRIVMSG", parts := [target], trailing := text }
      = Except.ok (emit c (Event.messageReceived (extractNickname pfx) target text)) := by
  have h1 : (qs "PRIVMSG" = qs "PING") = False := by decide
  have h2 : toInt (qs "PRIVMSG") = none := by decide
  simp only [dispatch, h1, h2, if_false]
  rfl

/-! ## C3: PRIVMSG -/

/-- C3: for every nick (non-empty, without space and without '!'), detail
(without space), target (without space, not starting with ':'; it need not
even be non-empty) and text that does not end with white space,
parseIrcMessage on the line
`:<nick>!<detail> PRIVMSG <target> :<text>` completes and leaves the connection
as it was except for one more emitted signal, messageReceived(nick, target,
text), the text being reproduced exactly; nothing is written to the socket. -/
theorem C3_privmsg_emits_chat_message (c : IrcConnection)
    (nick detail target text : QString)
    (hnick : nick ≠ []) (hnickSpace : ' ' ∉ nick) (hnickBang : '!' ∉ nick)
    (hdetail : ' ' ∉ detail) (htargetSpace : ' ' ∉ target)
    (htargetColon : startsWith target ':' = false)
    (htext : endsWithSpace text = false) :
    parseIrcMessage c
        (qs ":" ++ nick ++ qs "!" ++ detail ++ qs " PRIVMSG " ++ target ++ qs " :" ++ text)
      = Except.ok { c with
          emitted := c.emitted ++ [Event.messageReceived nick target text] } := by
  have hpfx : ' ' ∉ nick ++ '!' :: detail := by
    intro hmem
    rcases List.mem_append.mp hmem with e | e
    · exact hnickSpace e
    · rcases List.mem_cons.mp e with e2 | e2
      · exact absurd e2 (by decide)
      · exact hdetail e2
  have hline : qs ":" ++ nick ++ qs "!" ++ detail ++ qs " PRIVMSG " ++ target ++ qs " :" ++ text
      = ':' :: (nick ++ '!' :: detail) ++ ' ' :: (qs "PRIVMSG" ++ ' ' ::
          ([target].foldr (fun p acc => p ++ ' ' :: acc) (':' :: text))) := by
    simp [qs]
  have hparse := parseLine_shape (nick ++ '!' :: detail) (qs "PRIVMSG") text [target] 'P'
    (qs "RIVMSG") rfl (by decide) hpfx (by decide)
    (by
      intro p hp
      rw [List.mem_singleton.mp hp]
      exact ⟨htargetSpace, htargetColon⟩)
    htext
  rw [hline]
  simp only [parseIrcMessage, hparse]
  rw [dispatch_privmsg, extractNickname_nick nick detail hnick hnickBang]
  rfl

/-- C3 at the line of the specification. -/
theorem C3_privmsg_emits_chat_message_witness :
    parseIrcMessage connectedConn (qs ":nick!user@host PRIVMSG #room :hello world")
      = Except.ok { connectedConn with
          emitted := [Event.messageReceived (qs "nick") (qs "#room") (qs "hello world")] } :=
  C3_privmsg_emits_chat_message connectedConn (qs "nick") (qs "user@host") (qs "#room")
    (qs "hello world") (by decide) (by decide) (by decide) (by decide) (by decide) (by decide)
    (by decide)

/-! ## C4: PING -/

theorem arg_pong (t : QString) : arg (qs "PONG %1") t = qs "PONG " ++ t := by
  have hp : fmtPieces (qs "PONG %1")
      = (qs "PONG ").map FmtPiece.lit ++ [FmtPiece.marker 1 (qs "%1")] := by decide
  have hn : markerNumbers (fmtPieces (qs "PONG %1")) = [1] := by decide
  simp only [arg, hn]
  rw [hp]
  simp [substitute, qs]

theorem sendRawMessage_connected (c : IrcConnection) (message : QString)
    (hconn : isConnected c = true) :
    sendRawMessage c message
      = { c with
          m_socket := { c.m_socket with
            ops := c.m_socket.ops
              ++ [SocketOp.write (toUtf8 (message ++ qs "\r\n")), SocketOp.flush] },
          log := c.log ++ [LogEntry.debug [qs ">> ", message]] } := by
  simp [sendRawMessage, hconn, qDebug, QTcpSocket.write, QTcpSocket.flush]

/-- C4 (as stated, fails): in the line "PING x :" a token starts with the
colon, so the trailing parameter is present, and it is empty; the reply written
is "PONG x\r\n", the positional parameter, and not "PONG \r\n". -/
theorem C4_ping_empty_trailing_counterexample :
    ((split ' ' (qs "PING x :")).drop 1).any (fun p => startsWith p ':') = true
    ∧ parseLine (qs "PING x :")
        = some { pfx := [], command := qs "PING", parts := [qs "x"], trailing := [] }
    ∧ (parseIrcMessage connectedConn (qs "PING x :")).map (fun c => c.m_socket.ops)
        = Except.ok [SocketOp.write (toUtf8 (qs "PONG x\r\n")), SocketOp.flush]
    ∧ toUtf8 (qs "PONG x\r\n") ≠ toUtf8 (qs "PONG " ++ [] ++ qs "\r\n") := by
  refine ⟨by decide, by decide, by decide, by decide⟩

/-- C4 (amended): while connected, for every line that parses to the command
PING (with or without a prefix), parseIrcMessage completes, writes exactly one
line `PONG <token>\r\n` (one write of its UTF-8 bytes, then a flush), where
`<token>` is the trailing parameter when that is non-empty and otherwise the
positional parameters joined by single spaces, and emits no signal. -/
theorem C4_ping_replies_pong (c : IrcConnection) (line : QString) (m : ParsedMessage)
    (hconn : isConnected c = true) (hparse : parseLine line = some m)
    (hcmd : m.command = qs "PING") :
    parseIrcMessage c line
      = Except.ok { c with
          m_socket := { c.m_socket with
            ops := c.m_socket.ops
              ++ [SocketOp.write (toUtf8 (qs "PONG "
                    ++ (if m.trailing = [] then join ' ' m.parts else m.trailing)
                    ++ qs "\r\n")),
                  SocketOp.flush] },
          log := c.log ++ [LogEntry.debug [qs ">> ", qs "PONG "
                    ++ (if m.trailing = [] then join ' ' m.parts else m.trailing)]] } := by
  simp only [parseIrcMessage, hparse, dispatch, hcmd, if_true, arg_pong]
  rw [show (pure (sendRawMessage c (qs "PONG "
        ++ (if m.trailing.isEmpty = true then join ' ' m.parts else m.trailing)))
        : Except Fault IrcConnection)
      = Except.ok (sendRawMessage c (qs "PONG "
        ++ (if m.trailing.isEmpty = true then join ' ' m.parts else m.trailing))) from rfl,
    sendRawMessage_connected _ _ hconn]
  simp [List.isEmpty_iff]

/-- C4 at the line of the specification, "PING :abc123", answered by
"PONG abc123\r\n", and at a line with a prefix and no trailing parameter;
no signal is emitted. -/
theorem C4_ping_replies_pong_witness :
    parseIrcMessage connectedConn (qs "PING :abc123")
      = Except.ok { connectedConn with
          m_socket := { connectedConn.m_socket with
            ops := [SocketOp.write (toUtf8 (qs "PONG abc123\r\n")), SocketOp.flush] },
          log := [LogEntry.debug [qs ">> ", qs "PONG abc123"]] }
    ∧ parseIrcMessage connectedConn (qs ":irc.example.org PING a b")
      = Except.ok { connectedConn with
          m_socket := { connectedConn.m_socket with
            ops := [SocketOp.write (toUtf8 (qs "PONG a b\r\n")), SocketOp.flush] },
          log := [LogEntry.debug [qs ">> ", qs "PONG a b"]] } :=
  ⟨C4_ping_replies_pong connectedConn (qs "PING :abc123")
    { pfx := [], command := qs "PING", parts := [], trailing := qs "abc123" }
    (by decide) (by decide) (by decide),
   C4_ping_replies_pong connectedConn (qs ":irc.example.org PING a b")
    { pfx := qs "irc.example.org", command := qs "PING", parts := [qs "a", qs "b"],
      trailing := [] }
    (by decide) (by decide) (by decide)⟩

/-! ## C5: the name-list reply -/

/-- C5 (as stated, fails): on ":server 353 me = #room :alice @bob +carol" the
one signal emitted is not userListReceived("#room", ["alice", "bob", "carol"]):
the users are the tokens as received, mode markers included. -/
theorem C5_user_list_counterexample :
    (parseIrcMessage connectedConn (qs ":server 353 me = #room :alice @bob +carol")).map
        (fun c => c.emitted)
      ≠ Except.ok [Event.userListReceived (qs "#room") [qs "alice", qs "bob", qs "carol"]] := by
  decide

/-- C5 (amended): on ":server 353 me = #room :alice @bob +carol" parseIrcMessage
completes and leaves the connection as it was except for one more emitted
signal, userListReceived("#room", ["alice", "@bob", "+carol"]). -/
theorem C5_user_list_verbatim (c : IrcConnection) :
    parseIrcMessage c (qs ":server 353 me = #room :alice @bob +carol")
      = Except.ok { c with
          emitted := c.emitted
            ++ [Event.userListReceived (qs "#room") [qs "alice", qs "@bob", qs "+carol"]] } :=
  rfl

/-! ## C6: the topic reply -/

theorem dispatch_topic (c : IrcConnection) (pfx me channel topic : QString) :
    dispatch c { pfx := pfx, command := qs "332", parts := [me, channel], trailing := topic }
      = Except.ok (emit c (Event.topicReceived channel topic)) := by
  have h1 : (qs "332" = qs "PING") = False := by decide
  have h2 : toInt (qs "332") = some 332 := by decide
  have h3 : midFrom [me, channel, topic] 2 = [topic] := by
    have := midFrom_natCast [me, channel, topic] 2 (by simp)
    simpa using this
  cases topic with
  | nil =>
    simp only [dispatch, h1, h2, if_false]
    rfl
  | cons t ts =>
    simp only [dispatch, h1, h2, if_false]
    have hp : (if (!(t :: ts).isEmpty) = true then [me, channel] ++ [t :: ts]
        else [me, channel]) = [me, channel, t :: ts] := rfl
    rw [hp]
    have hcode1 : ((332 : Int) = 1) = False := by decide
    simp only [handleNumericReply, hcode1, if_false, if_true, h3]
    rfl

/-- C6: for every server prefix (without space), own nick and channel (each
without space and not starting with ':'; they need not even be non-empty) and
topic that does not end with white space, parseIrcMessage on the line
`:<server> 332 <me> <channel> :<topic>` completes and leaves the connection as
it was except for one more emitted signal, topicReceived(channel, topic);
nothing is written to the socket. -/
theorem C6_topic_reply_emits_topic (c : IrcConnection) (server me channel topic : QString)
    (hserver : ' ' ∉ server)
    (hmeSpace : ' ' ∉ me) (hmeColon : startsWith me ':' = false)
    (hchannelSpace : ' ' ∉ channel) (hchannelColon : startsWith channel ':' = false)
    (htopic : endsWithSpace topic = false) :
    parseIrcMessage c
        (qs ":" ++ server ++ qs " 332 " ++ me ++ qs " " ++ channel ++ qs " :" ++ topic)
      = Except.ok { c with emitted := c.emitted ++ [Event.topicReceived channel topic] } := by
  have hline : qs ":" ++ server ++ qs " 332 " ++ me ++ qs " " ++ channel ++ qs " :" ++ topic
      = ':' :: server ++ ' ' :: (qs "332" ++ ' ' ::
          ([me, channel].foldr (fun p acc => p ++ ' ' :: acc) (':' :: topic))) := by
    simp [qs]
  have hparse := parseLine_shape server (qs "332") topic [me, channel] '3'
    (qs "32") rfl (by decide) hserver (by decide)
    (by
      intro p hp
      rcases List.mem_cons.mp hp with e | e
      · rw [e]; exact ⟨hmeSpace, hmeColon⟩
      · rw [List.mem_singleton.mp e]; exact ⟨hchannelSpace, hchannelColon⟩)
    htopic
  rw [hline]
  simp only [parseIrcMessage, hparse]
  rw [dispatch_topic]
  rfl

/-- C6 at the line of the specification. -/
theorem C6_topic_reply_emits_topic_witness :
    parseIrcMessage connectedConn (qs ":server 332 me #room :Welcome topic")
      = Except.ok { connectedConn with
          emitted := [Event.topicReceived (qs "#room") (qs "Welcome topic")] } :=
  C6_topic_reply_emits_topic connectedConn (qs "server") (qs "me") (qs "#room")
    (qs "Welcome topic") (by decide) (by decide) (by decide) (by decide) (by decide)
    (by decide)

/-! ## C7 and C8: the outbound commands -/

theorem arg_nick (n : QString) : arg (qs "NICK %1") n = qs "NICK " ++ n := by
  have hp : fmtPieces (qs "NICK %1")
      = (qs "NICK ").map FmtPiece.lit ++ [FmtPiece.marker 1 (qs "%1")] := by decide
  have hn : markerNumbers (fmtPieces (qs "NICK %1")) = [1] := by decide
  simp only [arg, hn]
  rw [hp]
  simp [substitute, qs]

theorem arg_user (n : QString) :
    arg (qs "USER %1 0 * :%1") n = qs "USER " ++ n ++ qs " 0 * :" ++ n := by
  have hp : fmtPieces (qs "USER %1 0 * :%1")
      = (qs "USER ").map FmtPiece.lit ++ [FmtPiece.marker 1 (qs "%1")]
        ++ (qs " 0 * :").map FmtPiece.lit ++ [FmtPiece.marker 1 (qs "%1")] := by decide
  have hn : markerNumbers (fmtPieces (qs "USER %1 0 * :%1")) = [1] := by decide
  simp only [arg, hn]
  rw [hp]
  simp [substitute, qs]

theorem arg_join (ch : QString) : arg (qs "JOIN %1") ch = qs "JOIN " ++ ch := by
  have hp : fmtPieces (qs "JOIN %1")
      = (qs "JOIN ").map FmtPiece.lit ++ [FmtPiece.marker 1 (qs "%1")] := by decide
  have hn : markerNumbers (fmtPieces (qs "JOIN %1")) = [1] := by decide
  simp only [arg, hn]
  rw [hp]
  simp [substitute, qs]

theorem arg_part (ch : QString) : arg (qs "PART %1") ch = qs "PART " ++ ch := by
  have hp : fmtPieces (qs "PART %1")
      = (qs "PART ").map FmtPiece.lit ++ [FmtPiece.marker 1 (qs "%1")] := by decide
  have hn : markerNumbers (fmtPieces (qs "PART %1")) = [1] := by decide
  simp only [arg, hn]
  rw [hp]
  simp [substitute, qs]

theorem arg2_privmsg (t m : QString) :
    arg2 (qs "PRIVMSG %1 :%2") t m = qs "PRIVMSG " ++ t ++ qs " :" ++ m := by
  have hp : fmtPieces (qs "PRIVMSG %1 :%2")
      = (qs "PRIVMSG ").map FmtPiece.lit ++ [FmtPiece.marker 1 (qs "%1")]
        ++ (qs " :").map FmtPiece.lit ++ [FmtPiece.marker 2 (qs "%2")] := by decide
  have hn : markerNumbers (fmtPieces (qs "PRIVMSG %1 :%2")) = [1, 2] := by decide
  simp only [arg2, hn]
  rw [hp]
  simp [substitute, qs]

theorem sendRawMessage_not_connected (c : IrcConnection) (message : QString)
    (hconn : isConnected c = false) :
    sendRawMessage c message
      = { c with log := c.log ++ [LogEntry.warning [qs "Not connected to server"]] } := by
  simp [sendRawMessage, hconn, qWarning]

/-- C7 (as stated, fails): on a connection that is not connected,
sendMessage("#room", "hello") returns nothing to its caller (its C++ result
type is void) and emits no signal, connectionError or other: the connection is
left as it was except for one line of warning in the diagnostic output.  No
failure is reported to the caller. -/
theorem C7_not_connected_counterexample :
    isConnected idleConn = false
    ∧ sendMessage idleConn (qs "#room") (qs "hello")
        = { idleConn with log := [LogEntry.warning [qs "Not connected to server"]] }
    ∧ (sendMessage idleConn (qs "#room") (qs "hello")).emitted = [] := by
  refine ⟨by decide, by decide, by decide⟩

/-- C7 (amended): while the connection is not connected, sendMessage, for
every target and text, writes nothing to the socket (no call is made on it) and
emits no signal; the rejection is not reported to the caller, it only adds the
warning "Not connected to server" to the diagnostic output.  The same holds
for sendRawMessage, joinChannel and partChannel, and for setNickname, which
stores the nick and adds the warning twice. -/
theorem C7_not_connected_writes_nothing (c : IrcConnection) (target text nick channel
    literal : QString) (hconn : isConnected c = false) :
    sendMessage c target text
        = { c with log := c.log ++ [LogEntry.warning [qs "Not connected to server"]] }
    ∧ sendRawMessage c literal
        = { c with log := c.log ++ [LogEntry.warning [qs "Not connected to server"]] }
    ∧ joinChannel c channel
        = { c with log := c.log ++ [LogEntry.warning [qs "Not connected to server"]] }
    ∧ partChannel c channel
        = { c with log := c.log ++ [LogEntry.warning [qs "Not connected to server"]] }
    ∧ setNickname c nick
        = { c with
            m_nickname := nick,
            log := c.log ++ [LogEntry.warning [qs "Not connected to server"],
                             LogEntry.warning [qs "Not connected to server"]] } := by
  refine ⟨?_, ?_, ?_, ?_, ?_⟩
  · exact sendRawMessage_not_connected c _ hconn
  · exact sendRawMessage_not_connected c _ hconn
  · exact sendRawMessage_not_connected c _ hconn
  · exact sendRawMessage_not_connected c _ hconn
  · have h1 : isConnected { c with m_nickname := nick } = false := hconn
    simp only [setNickname]
    rw [sendRawMessage_not_connected _ _ h1, sendRawMessage_not_connected _ _ (by exact hconn)]
    simp

/-- C7 (amended) on a connection whose socket was never opened. -/
theorem C7_not_connected_writes_nothing_witness :
    sendMessage idleConn (qs "#room") (qs "hello")
        = { idleConn with log := [LogEntry.warning [qs "Not connected to server"]] }
    ∧ (sendMessage idleConn (qs "#room") (qs "hello")).m_socket.written = [] :=
  ⟨(C7_not_connected_writes_nothing idleConn (qs "#room") (qs "hello") (qs "me") (qs "#room")
      (qs "WHOIS me") (by decide)).1, by decide⟩

/-- C8: while connected, for all argument strings, the calls made on the
socket are exactly: for setNickname(n) a write of the UTF-8 bytes of
"NICK n\r\n", a flush, a write of "USER n 0 * :n\r\n" and a flush; for
joinChannel(c) a write of "JOIN c\r\n" and a flush; for partChannel(c) a write
of "PART c\r\n" and a flush; for sendMessage(t, m) a write of
"PRIVMSG t :m\r\n" and a flush; for sendRawMessage(l) a write of l followed by
"\r\n" and a flush.  The arguments are inserted as they are, place markers
such as "%1" or "%2" inside them included. -/
theorem C8_outbound_lines (c : IrcConnection) (n ch t m l : QString)
    (hconn : isConnected c = true) :
    (setNickname c n).m_socket.ops
        = c.m_socket.ops
          ++ [SocketOp.write (toUtf8 (qs "NICK " ++ n ++ qs "\r\n")), SocketOp.flush,
              SocketOp.write (toUtf8 (qs "USER " ++ n ++ qs " 0 * :" ++ n ++ qs "\r\n")),
              SocketOp.flush]
    ∧ (joinChannel c ch).m_socket.ops
        = c.m_socket.ops
          ++ [SocketOp.write (toUtf8 (qs "JOIN " ++ ch ++ qs "\r\n")), SocketOp.flush]
    ∧ (partChannel c ch).m_socket.ops
        = c.m_socket.ops
          ++ [SocketOp.write (toUtf8 (qs "PART " ++ ch ++ qs "\r\n")), SocketOp.flush]
    ∧ (sendMessage c t m).m_socket.ops
        = c.m_socket.ops
          ++ [SocketOp.write (toUtf8 (qs "PRIVMSG " ++ t ++ qs " :" ++ m ++ qs "\r\n")),
              SocketOp.flush]
    ∧ (sendRawMessage c l).m_socket.ops
        = c.m_socket.ops ++ [SocketOp.write (toUtf8 (l ++ qs "\r\n")), SocketOp.flush] := by
  refine ⟨?_, ?_, ?_, ?_, ?_⟩
  · have h1 : isConnected { c with m_nickname := n } = true := hconn
    have h2 : isConnected (sendRawMessage { c with m_nickname := n } (qs "NICK " ++ n))
        = true := by
      rw [sendRawMessage_connected _ _ h1]
      exact hconn
    simp only [setNickname, arg_nick, arg_user]
    rw [sendRawMessage_connected _ _ h2, sendRawMessage_connected _ _ h1]
    simp
  · simp only [joinChannel, arg_join]
    rw [sendRawMessage_connected _ _ hconn]
  · simp only [partChannel, arg_part]
    rw [sendRawMessage_connected _ _ hconn]
  · simp only [sendMessage, arg2_privmsg]
    rw [sendRawMessage_connected _ _ hconn]
  · rw [sendRawMessage_connected _ _ hconn]

/-- C8 with arguments that hold place markers: the bytes written are those of
the lines with the arguments inserted unchanged. -/
theorem C8_outbound_lines_witness :
    (setNickname connectedConn (qs "bob%1")).m_socket.written
        = toUtf8 (qs "NICK bob%1\r\nUSER bob%1 0 * :bob%1\r\n")
    ∧ (sendMessage connectedConn (qs "%2") (qs "%1 and %2")).m_socket.written
        = toUtf8 (qs "PRIVMSG %2 :%1 and %2\r\n")
    ∧ (sendMessage connectedConn (qs "%2") (qs "%1 and %2")).m_socket.ops
        = connectedConn.m_socket.ops
          ++ [SocketOp.write (toUtf8 (qs "PRIVMSG " ++ qs "%2" ++ qs " :" ++ qs "%1 and %2"
                ++ qs "\r\n")), SocketOp.flush] :=
  ⟨by decide, by decide,
   (C8_outbound_lines connectedConn (qs "bob%1") (qs "#room") (qs "%2") (qs "%1 and %2")
      (qs "WHOIS bob") (by decide)).2.2.2.1⟩

/-! ## C9: disconnect -/

/-- C9: in the connected state, disconnect() makes exactly three calls on the
socket, in this order: a write of "QUIT :Leaving\r\n", a flush, and
disconnectFromHost(), the request to close; it emits no signal itself.  The
close reported by the transport after that emits exactly one signal,
disconnected(), and makes no further call on the socket. -/
theorem C9_disconnect_quits_then_closes (c : IrcConnection) (hconn : isConnected c = true) :
    (disconnect c).m_socket.ops
        = c.m_socket.ops
          ++ [SocketOp.write (toUtf8 (qs "QUIT :Leaving\r\n")), SocketOp.flush,
              SocketOp.disconnectFromHost]
    ∧ (disconnect c).emitted = c.emitted
    ∧ (transportClosed (disconnect c)).emitted = c.emitted ++ [Event.disconnected]
    ∧ (transportClosed (disconnect c)).m_socket.ops = (disconnect c).m_socket.ops := by
  have hphase : c.m_socket.phase = SocketPhase.connected := by
    unfold isConnected QTcpSocket.state at hconn
    cases hp : c.m_socket.phase <;> simp [hp] at hconn
    rfl
  have hopen : c.m_socket.isOpen = true := by
    simp [QTcpSocket.isOpen, hphase]
  have hd : disconnect c
      = { c with
          m_socket := { c.m_socket with
            phase := SocketPhase.closing,
            ops := c.m_socket.ops
              ++ [SocketOp.write (toUtf8 (qs "QUIT :Leaving\r\n")), SocketOp.flush,
                  SocketOp.disconnectFromHost] },
          log := c.log ++ [LogEntry.debug [qs ">> ", qs "QUIT :Leaving"]] } := by
    simp only [disconnect, hopen, if_true]
    rw [sendRawMessage_connected _ _ hconn]
    simp [QTcpSocket.disconnectFromHost, hphase, qs]
  rw [hd]
  exact ⟨rfl, rfl, rfl, rfl⟩

/-- C9 on the connected connection that has done nothing yet. -/
theorem C9_disconnect_quits_then_closes_witness :
    (disconnect connectedConn).m_socket.ops
        = connectedConn.m_socket.ops
          ++ [SocketOp.write (toUtf8 (qs "QUIT :Leaving\r\n")), SocketOp.flush,
              SocketOp.disconnectFromHost]
    ∧ (transportClosed (disconnect connectedConn)).emitted = [Event.disconnected] :=
  ⟨(C9_disconnect_quits_then_closes connectedConn (by decide)).1,
   (C9_disconnect_quits_then_closes connectedConn (by decide)).2.2.1⟩

/-! ## C10: extractNickname -/

/-- C10 (as stated, fails): the prefix "!user@host" contains '!', the text
before its first '!' is empty, and extractNickname returns the whole prefix,
not the empty sender. -/
theorem C10_leading_bang_counterexample :
    '!' ∈ qs "!user@host"
    ∧ (qs "!user@host").takeWhile (fun x => x != '!') = []
    ∧ extractNickname (qs "!user@host") = qs "!user@host"
    ∧ extractNickname (qs "!user@host") ≠ [] := by
  refine ⟨by decide, by decide, by decide, by decide⟩

/-- C10 (amended): extractNickname returns the text before the first '!' when
the prefix contains '!' and does not begin with it, and the whole prefix
otherwise, that is when the prefix begins with '!' or contains none. -/
theorem C10_extractNickname_cases :
    (∀ nick rest : QString, nick ≠ [] → '!' ∉ nick →
        extractNickname (nick ++ '!' :: rest) = nick)
    ∧ (∀ rest : QString, extractNickname ('!' :: rest) = '!' :: rest)
    ∧ (∀ pfx : QString, '!' ∉ pfx → extractNickname pfx = pfx) := by
  refine ⟨fun nick rest hne hbang => extractNickname_nick nick rest hne hbang, ?_, ?_⟩
  · intro rest
    have h := indexOf_first [] rest '!' (by simp)
    simp only [List.nil_append, List.length_nil] at h
    simp [extractNickname, h]
  · intro pfx hbang
    simp [extractNickname, indexOf, hbang]

/-- C10 (amended) at three prefixes, one for each case. -/
theorem C10_extractNickname_cases_witness :
    extractNickname (qs "nick" ++ '!' :: qs "user@host") = qs "nick"
    ∧ extractNickname ('!' :: qs "user@host") = '!' :: qs "user@host"
    ∧ extractNickname (qs "irc.example.org") = qs "irc.example.org" :=
  ⟨C10_extractNickname_cases.1 (qs "nick") (qs "user@host") (by decide) (by decide),
   C10_extractNickname_cases.2.1 (qs "user@host"),
   C10_extractNickname_cases.2.2 (qs "irc.example.org") (by decide)⟩

/-! ## C11: the parse step -/

theorem split_no_sep_mem (sep : Char) (s : QString) : ∀ w ∈ split sep s, sep ∉ w := by
  induction s with
  | nil =>
    intro w hw
    simp only [split, List.mem_singleton] at hw
    simp [hw]
  | cons c cs ih =>
    intro w hw
    by_cases h : c = sep
    · simp only [split, h, if_true] at hw
      rcases List.mem_cons.mp hw with e | e
      · simp [e]
      · exact ih w e
    · obtain ⟨v, vs, hs, hc⟩ := split_cons_ne sep c cs h
      rw [hc] at hw
      rw [hs] at ih
      rcases List.mem_cons.mp hw with e | e
      · rw [e]
        intro hmem
        rcases List.mem_cons.mp hmem with e2 | e2
        · exact h e2.symm
        · exact ih v (List.mem_cons_self _ _) e2
      · exact ih w (List.mem_cons_of_mem _ e)

theorem join_append (sep : Char) (a b : QStringList) (ha : a ≠ []) (hb : b ≠ []) :
    join sep (a ++ b) = join sep a ++ sep :: join sep b := by
  induction a with
  | nil => exact absurd rfl ha
  | cons x xs ih =>
    cases xs with
    | nil =>
      cases b with
      | nil => exact absurd rfl hb
      | cons y ys => rfl
    | cons y ys =>
      have h := ih (by simp)
      simp only [List.cons_append] at h ⊢
      rw [join_cons_cons, h, join_cons_cons]
      simp

/-- A list of tokens either holds no token that starts with a colon, or is cut
at the first such token. -/
theorem first_marker (parts : QStringList) :
    (∀ p ∈ parts, startsWith p ':' = false)
    ∨ ∃ ps w ws, parts = ps ++ (':' :: w) :: ws ∧ ∀ p ∈ ps, startsWith p ':' = false := by
  induction parts with
  | nil => exact Or.inl (fun p hp => by cases hp)
  | cons q qs1 ih =>
    by_cases hq : startsWith q ':' = true
    · right
      cases q with
      | nil => simp [startsWith] at hq
      | cons x w =>
        have hx : x = ':' := by simpa [startsWith] using hq
        exact ⟨[], w, qs1, by simp [hx], fun p hp => by cases hp⟩
    · have hq2 : startsWith q ':' = false := by simpa using hq
      rcases ih with hall | ⟨ps, w, ws, he, hps⟩
      · left
        intro p hp
        rcases List.mem_cons.mp hp with e | e
        · rw [e]; exact hq2
        · exact hall p e
      · right
        refine ⟨q :: ps, w, ws, by simp [he], ?_⟩
        intro p hp
        rcases List.mem_cons.mp hp with e | e
        · rw [e]; exact hq2
        · exact hps p e

theorem extractTrailing_none (parts : QStringList)
    (h : ∀ p ∈ parts, startsWith p ':' = false) : extractTrailing parts = (parts, []) := by
  have hidx : parts.findIdx? (fun p => startsWith p ':') = none := by
    rw [List.findIdx?_eq_none_iff]
    intro p hp
    simp [h p hp]
  simp only [extractTrailing, hidx]

theorem takeWhile_no_marker (ps : QStringList) (w : QString) (ws : QStringList)
    (hps : ∀ p ∈ ps, startsWith p ':' = false) :
    (ps ++ (':' :: w) :: ws).takeWhile (fun p => !startsWith p ':') = ps := by
  have hp : ∀ p ∈ ps, (!startsWith p ':') = true := by
    intro p hp
    simp [hps p hp]
  rw [List.takeWhile_append_of_pos hp]
  simp [startsWith]

theorem takeWhile_all (parts : QStringList) (h : ∀ p ∈ parts, startsWith p ':' = false) :
    parts.takeWhile (fun p => !startsWith p ':') = parts := by
  rw [List.takeWhile_eq_self_iff]
  intro p hp
  simp [h p hp]

/-- The parse step on a line without prefix. -/
theorem parseLine_plain (line : QString) (hline : startsWith line ':' = false) :
    parseLine line
      = match split ' ' line with
        | [] => none
        | command :: parts =>
          some { pfx := [], command := command, parts := (extractTrailing parts).1,
                 trailing := (extractTrailing parts).2 } := by
  simp only [parseLine, hline, Bool.false_eq_true, if_false]

/-- C11: the parse step is a lossless decomposition.  For every line that
does not start with ':', with tokens the split of the line on single spaces:
the parse step completes without prefix, the command is the first token, the
positional parameters are exactly the tokens after it that precede the first
token starting with ':' (so none of them contains a space or starts with
':'); when such a marker token exists, joining the command, the positional
parameters and ":" followed by the trailing parameter with single spaces gives
back the line; when no token starts with ':', the trailing parameter is empty
and every token after the command is positional. -/
theorem C11_parse_lossless (line : QString) (hline : startsWith line ':' = false) :
    ∃ m, parseLine line = some m
      ∧ m.pfx = []
      ∧ split ' ' line = m.command :: (split ' ' line).tail
      ∧ m.parts = (split ' ' line).tail.takeWhile (fun p => !startsWith p ':')
      ∧ (∀ p ∈ m.parts, ' ' ∉ p ∧ startsWith p ':' = false)
      ∧ ((∃ p ∈ (split ' ' line).tail, startsWith p ':' = true) →
          join ' ' (m.command :: m.parts ++ [':' :: m.trailing]) = line)
      ∧ ((∀ p ∈ (split ' ' line).tail, startsWith p ':' = false) →
          m.trailing = [] ∧ m.parts = (split ' ' line).tail) := by
  have hjoin := join_split ' ' line
  have hmem := split_no_sep_mem ' ' line
  rw [parseLine_plain line hline]
  cases hs : split ' ' line with
  | nil => exact absurd hs (split_ne_nil ' ' line)
  | cons command rest =>
    rw [hs] at hjoin hmem
    simp only [List.tail_cons]
    rcases first_marker rest with hall | ⟨ps, w, ws, hrest, hps⟩
    · refine ⟨_, rfl, rfl, rfl, ?_, ?_, ?_, ?_⟩
      · simp only [extractTrailing_none rest hall]
        exact (takeWhile_all rest hall).symm
      · simp only [extractTrailing_none rest hall]
        intro p hp
        exact ⟨hmem p (List.mem_cons_of_mem _ hp), hall p hp⟩
      · rintro ⟨p, hp, hcolon⟩
        rw [hall p hp] at hcolon
        cases hcolon
      · intro _
        rw [extractTrailing_none rest hall]
        exact ⟨rfl, rfl⟩
    · have hext := extractTrailing_marker ps w ws hps
      rw [← hrest] at hext
      refine ⟨_, rfl, rfl, rfl, ?_, ?_, ?_, ?_⟩
      · simp only [hext]
        rw [hrest]
        exact (takeWhile_no_marker ps w ws hps).symm
      · simp only [hext]
        intro p hp
        refine ⟨hmem p (List.mem_cons_of_mem _ ?_), hps p hp⟩
        rw [hrest]
        exact List.mem_append_left _ hp
      · intro _
        simp only [hext]
        have hcolon : ':' :: (join ' ' ((':' :: w) :: ws)).drop 1
            = join ' ' ((':' :: w) :: ws) := by
          rw [join_cons_char]
          rfl
        rw [hcolon]
        have h1 := join_append ' ' (command :: ps) [join ' ' ((':' :: w) :: ws)]
          (by simp) (by simp)
        have h2 := join_append ' ' (command :: ps) ((':' :: w) :: ws) (by simp) (by simp)
        rw [hrest] at hjoin
        simp only [List.cons_append] at h1 h2 hjoin ⊢
        rw [h1, ← hjoin, h2]
        rfl
      · intro hall
        have hbad := hall (':' :: w) (by rw [hrest]; simp)
        simp [startsWith] at hbad

/-- C11 at two lines without prefix, one with a trailing parameter that holds
a run of spaces and a colon, one with no trailing parameter. -/
theorem C11_parse_lossless_witness :
    (∃ m, parseLine (qs "KICK #room  bob :too  loud :-)") = some m
      ∧ m.pfx = []
      ∧ split ' ' (qs "KICK #room  bob :too  loud :-)")
          = m.command :: (split ' ' (qs "KICK #room  bob :too  loud :-)")).tail
      ∧ m.parts = (split ' ' (qs "KICK #room  bob :too  loud :-)")).tail.takeWhile
          (fun p => !startsWith p ':')
      ∧ (∀ p ∈ m.parts, ' ' ∉ p ∧ startsWith p ':' = false)
      ∧ ((∃ p ∈ (split ' ' (qs "KICK #room  bob :too  loud :-)")).tail,
            startsWith p ':' = true) →
          join ' ' (m.command :: m.parts ++ [':' :: m.trailing])
            = qs "KICK #room  bob :too  loud :-)")
      ∧ ((∀ p ∈ (split ' ' (qs "KICK #room  bob :too  loud :-)")).tail,
            startsWith p ':' = false) →
          m.trailing = [] ∧ m.parts = (split ' ' (qs "KICK #room  bob :too  loud :-)")).tail))
    ∧ parseLine (qs "KICK #room  bob :too  loud :-)")
        = some { pfx := [], command := qs "KICK", parts := [qs "#room", qs "", qs "bob"],
                 trailing := qs "too  loud :-)" }
    ∧ parseLine (qs "MODE #room +o bob")
        = some { pfx := [], command := qs "MODE", parts := [qs "#room", qs "+o", qs "bob"],
                 trailing := [] } :=
  ⟨C11_parse_lossless (qs "KICK #room  bob :too  loud :-)") (by decide), by decide, by decide⟩

/-! ## The decimal text of a code -/

theorem isSpace_of_isDigit (ch : Char) (h : isDigit ch = true) : isSpace ch = false := by
  simp only [isDigit, Bool.and_eq_true, decide_eq_true_eq] at h
  simp only [isSpace, Bool.or_eq_false_iff, Bool.and_eq_false_iff, beq_eq_false_iff_ne,
    decide_eq_false_iff_not, ne_eq]
  omega

theorem digitChar_digit (d : Nat) (h : d < 10) :
    isDigit (Nat.digitChar d) = true ∧ (Nat.digitChar d).toNat - 48 = d := by
  interval_cases d <;> exact ⟨by decide, by decide⟩

theorem digitsValue_concat (xs : QString) (d : Char) :
    digitsValue (xs ++ [d]) = 10 * digitsValue xs + (d.toNat - 48) := by
  simp [digitsValue, List.foldl_append]

theorem toDigitsCore_digits (fuel : Nat) :
    ∀ (n : Nat) (ds : List Char), n < fuel →
      ∃ xs, Nat.toDigitsCore 10 fuel n ds = xs ++ ds ∧ xs ≠ []
        ∧ (∀ ch ∈ xs, isDigit ch = true) ∧ digitsValue xs = n := by
  induction fuel with
  | zero => intro n ds h; omega
  | succ fuel ih =>
    intro n ds h
    have hd := digitChar_digit (n % 10) (Nat.mod_lt _ (by decide))
    by_cases hq : n / 10 = 0
    · refine ⟨[Nat.digitChar (n % 10)], ?_, by simp, ?_, ?_⟩
      · simp [Nat.toDigitsCore, hq]
      · intro ch hch
        rw [List.mem_singleton.mp hch]
        exact hd.1
      · simp only [digitsValue, List.foldl_cons, List.foldl_nil, hd.2]
        omega
    · have hlt : n / 10 < fuel := by omega
      obtain ⟨xs, hxs, hne, hall, hval⟩ := ih (n / 10) (Nat.digitChar (n % 10) :: ds) hlt
      refine ⟨xs ++ [Nat.digitChar (n % 10)], ?_, by simp, ?_, ?_⟩
      · simp [Nat.toDigitsCore, hq, hxs]
      · intro ch hch
        rcases List.mem_append.mp hch with e | e
        · exact hall ch e
        · rw [List.mem_singleton.mp e]
          exact hd.1
      · rw [digitsValue_concat, hval, hd.2]
        omega

theorem number_ofNat (m : Nat) :
    ∃ xs, number (Int.ofNat m) = xs ∧ xs ≠ [] ∧ (∀ ch ∈ xs, isDigit ch = true)
      ∧ digitsValue xs = m := by
  obtain ⟨xs, hxs, hne, hall, hval⟩ := toDigitsCore_digits (m + 1) m [] (by omega)
  refine ⟨xs, ?_, hne, hall, hval⟩
  simp only [List.append_nil] at hxs
  show (toString (Int.ofNat m)).data = xs
  rw [← hxs]
  rfl

theorem number_negSucc (m : Nat) :
    ∃ xs, number (Int.negSucc m) = '-' :: xs ∧ xs ≠ [] ∧ (∀ ch ∈ xs, isDigit ch = true)
      ∧ digitsValue xs = m + 1 := by
  obtain ⟨xs, hxs, hne, hall, hval⟩ := toDigitsCore_digits (m + 2) (m + 1) [] (by omega)
  refine ⟨xs, ?_, hne, hall, hval⟩
  simp only [List.append_nil] at hxs
  show (toString (Int.negSucc m)).data = '-' :: xs
  rw [← hxs]
  rfl

theorem endsWithSpace_digits (front xs : QString) (hne : xs ≠ [])
    (hall : ∀ ch ∈ xs, isDigit ch = true) : endsWithSpace (front ++ xs) = false := by
  have hlast : (front ++ xs).getLast? = some (xs.getLast hne) := by
    rw [List.getLast?_append, List.getLast?_eq_getLast _ hne]
    rfl
  simp only [endsWithSpace, hlast]
  exact isSpace_of_isDigit _ (hall _ (List.getLast_mem hne))

/-- The text that `number` gives for a code in the range of int is read back
by `toInt` as that code: it is the decimal text of the code. -/
theorem toInt_number (code : Int) (hlo : -2147483648 ≤ code) (hhi : code ≤ 2147483647) :
    toInt (number code) = some code := by
  cases code with
  | ofNat m =>
    obtain ⟨xs, hxs, hne, hall, hval⟩ := number_ofNat m
    rw [hxs]
    cases xs with
    | nil => exact absurd rfl hne
    | cons a t =>
      have ha : isDigit a = true := hall a (List.mem_cons_self _ _)
      have htrim : trimmed (a :: t) = a :: t :=
        trimmed_cons a t (isSpace_of_isDigit a ha) (endsWithSpace_digits [] (a :: t) hne hall)
      have hminus : startsWith (a :: t) '-' = false := by
        simp only [startsWith, beq_eq_false_iff_ne, ne_eq]
        intro e
        rw [e] at ha
        exact absurd ha (by decide)
      have hplus : startsWith (a :: t) '+' = false := by
        simp only [startsWith, beq_eq_false_iff_ne, ne_eq]
        intro e
        rw [e] at ha
        exact absurd ha (by decide)
      have hdig : (a :: t).all isDigit = true := List.all_eq_true.mpr hall
      have hm : (m : Int) ≤ 2147483647 := hhi
      simp only [toInt, htrim, hminus, hplus, Bool.or_self, Bool.false_eq_true, if_false,
        List.isEmpty_cons, hdig, Bool.not_true, hval]
      rw [if_pos ⟨by omega, hm⟩]
      rfl
  | negSucc m =>
    obtain ⟨xs, hxs, hne, hall, hval⟩ := number_negSucc m
    rw [hxs]
    have htrim : trimmed ('-' :: xs) = '-' :: xs :=
      trimmed_cons '-' xs (by decide) (endsWithSpace_digits ['-'] xs hne hall)
    have hminus : startsWith ('-' :: xs) '-' = true := rfl
    have hdig : xs.all isDigit = true := List.all_eq_true.mpr hall
    have hempty : xs.isEmpty = false := by
      cases xs with
      | nil => exact absurd rfl hne
      | cons a t => rfl
    have hm : -2147483648 ≤ Int.negSucc m := hlo
    simp only [toInt, htrim, hminus, Bool.true_or, if_true, List.drop_succ_cons, List.drop_zero,
      hempty, hdig, Bool.not_true, Bool.or_self, Bool.false_eq_true, if_false, hval]
    have hneg : -((m + 1 : Nat) : Int) = Int.negSucc m := by
      rw [Int.negSucc_eq]
      push_cast
      rfl
    rw [hneg, if_pos ⟨hm, by omega⟩]

/-! ## C12, C13 and C14: numeric replies -/

theorem handleNumericReply_names (c : IrcConnection) (p0 p1 channel : QString)
    (rest : QStringList) :
    handleNumericReply c 353 (p0 :: p1 :: channel :: rest)
      = Except.ok (emit c (Event.userListReceived channel
          ((split ' ' (join ' ' rest)).filter (fun u => !u.isEmpty)))) := by
  have h1 : ((353 : Int) = 1) = False := by decide
  have h2 : ((353 : Int) = 332) = False := by decide
  have hidx : index (p0 :: p1 :: channel :: rest) 2 = Except.ok channel := rfl
  have hmid : midFrom (p0 :: p1 :: channel :: rest) 3 = rest := by
    have := midFrom_natCast (p0 :: p1 :: channel :: rest) 3 (by simp)
    simpa using this
  have hlen : (p0 :: p1 :: channel :: rest).length ≥ 3 := by simp
  simp only [handleNumericReply, h1, h2, if_false, if_true, hlen, hidx, hmid]
  cases rest with
  | nil => rfl
  | cons r rs =>
    have hgt : (p0 :: p1 :: channel :: r :: rs).length > 3 := by simp
    simp only [hgt, if_true]
    rfl

/-- C12: handleNumericReply follows the dispatch table.  Code 1 emits exactly
one signal, serverMessageReceived with all params joined by single spaces.
Code 353 on a list of at least three params emits exactly one signal,
userListReceived with channel `params[2]` and, as users, the non-empty tokens
of the split on spaces of `params[3..]` joined by spaces, in order; no such
user is empty or contains a space.  Code 366 emits nothing.  Every code other
than 1, 332, 353 and 366 emits exactly one signal, serverMessageReceived with
the decimal text of the code, one space, and all params joined by single
spaces; that text, `number code`, is read back by `toInt` as the code for
every code in the range of int.  In each case the connection is otherwise left
as it was. -/
theorem C12_numeric_dispatch_table (c : IrcConnection) (code : Int)
    (params rest : QStringList) (p0 p1 channel : QString) :
    handleNumericReply c 1 params
        = Except.ok { c with
            emitted := c.emitted ++ [Event.serverMessageReceived (join ' ' params)] }
    ∧ (handleNumericReply c 353 (p0 :: p1 :: channel :: rest)
        = Except.ok { c with
            emitted := c.emitted ++ [Event.userListReceived channel
              ((split ' ' (join ' ' rest)).filter (fun u => !u.isEmpty))] }
       ∧ ∀ u ∈ (split ' ' (join ' ' rest)).filter (fun u => !u.isEmpty),
           u ≠ [] ∧ ' ' ∉ u)
    ∧ handleNumericReply c 366 params = Except.ok c
    ∧ (code ≠ 1 → code ≠ 332 → code ≠ 353 → code ≠ 366 →
        handleNumericReply c code params
          = Except.ok { c with
              emitted := c.emitted
                ++ [Event.serverMessageReceived (number code ++ qs " " ++ join ' ' params)] })
    ∧ (-2147483648 ≤ code → code ≤ 2147483647 → toInt (number code) = some code) := by
  refine ⟨rfl, ⟨?_, ?_⟩, rfl, ?_, toInt_number code⟩
  · rw [handleNumericReply_names]
    rfl
  · intro u hu
    obtain ⟨hmem, hne⟩ := List.mem_filter.mp hu
    refine ⟨?_, split_no_sep_mem ' ' _ u hmem⟩
    intro he
    simp [he] at hne
  · intro h1 h2 h3 h4
    simp only [handleNumericReply, h1, h2, h3, h4, if_false]
    rfl

/-- C12 at the codes 1, 353, 366 and 433. -/
theorem C12_numeric_dispatch_table_witness :
    handleNumericReply connectedConn 1 [qs "me", qs "Welcome to IRC"]
        = Except.ok { connectedConn with
            emitted := [Event.serverMessageReceived (qs "me Welcome to IRC")] }
    ∧ handleNumericReply connectedConn 353 [qs "me", qs "=", qs "#room", qs "alice  @bob", qs "carol"]
        = Except.ok { connectedConn with
            emitted := [Event.userListReceived (qs "#room") [qs "alice", qs "@bob", qs "carol"]] }
    ∧ handleNumericReply connectedConn 366 [qs "me", qs "#room", qs "End of /NAMES list."]
        = Except.ok connectedConn
    ∧ handleNumericReply connectedConn 433 [qs "*", qs "bob", qs "Nickname is already in use."]
        = Except.ok { connectedConn with
            emitted := connectedConn.emitted ++ [Event.serverMessageReceived
              (number 433 ++ qs " " ++ join ' ' [qs "*", qs "bob", qs "Nickname is already in use."])] }
    ∧ number 433 ++ qs " " ++ join ' ' [qs "*", qs "bob", qs "Nickname is already in use."]
        = qs "433 * bob Nickname is already in use." :=
  ⟨by decide, by decide, by decide,
   (C12_numeric_dispatch_table connectedConn 433 [qs "*", qs "bob", qs "Nickname is already in use."]
      [] [] [] []).2.2.2.1 (by decide) (by decide) (by decide) (by decide),
   by decide⟩

/-- C13 (as stated, fails): on the empty params list the codes 332 and 353
complete and emit nothing, and so do 332 on one param and 353 on two; no
topicReceived or userListReceived with empty fields is emitted. -/
theorem C13_short_params_counterexample :
    handleNumericReply connectedConn 332 [] = Except.ok connectedConn
    ∧ handleNumericReply connectedConn 353 [] = Except.ok connectedConn
    ∧ handleNumericReply connectedConn 332 [qs "me"] = Except.ok connectedConn
    ∧ handleNumericReply connectedConn 353 [qs "me", qs "="] = Except.ok connectedConn
    ∧ (handleNumericReply connectedConn 332 []).map (fun c => c.emitted)
        ≠ Except.ok [Event.topicReceived [] []]
    ∧ (handleNumericReply connectedConn 353 []).map (fun c => c.emitted)
        ≠ Except.ok [Event.userListReceived [] []] := by
  refine ⟨by decide, by decide, by decide, by decide, by decide, by decide⟩

/-- C13 (amended): for every params list that is too short for its code
(code 332 with fewer than 2 params, code 353 with fewer than 3 params, the
empty list included), handleNumericReply does not fail and emits nothing: the
connection is left exactly as it was. -/
theorem C13_short_params_dropped (c : IrcConnection) (params : QStringList) :
    (params.length < 2 → handleNumericReply c 332 params = Except.ok c)
    ∧ (params.length < 3 → handleNumericReply c 353 params = Except.ok c) := by
  have h1 : ((332 : Int) = 1) = False := by decide
  have h2 : ((353 : Int) = 1) = False := by decide
  have h3 : ((353 : Int) = 332) = False := by decide
  constructor
  · intro hlen
    have hn : ¬ params.length ≥ 2 := by omega
    simp only [handleNumericReply, h1, if_false, if_true, hn]
    rfl
  · intro hlen
    have hn : ¬ params.length ≥ 3 := by omega
    simp only [handleNumericReply, h2, h3, if_false, if_true, hn]
    rfl

/-- C13 (amended) at the lists of the counterexample. -/
theorem C13_short_params_dropped_witness :
    handleNumericReply connectedConn 332 [qs "me"] = Except.ok connectedConn
    ∧ handleNumericReply connectedConn 353 [qs "me", qs "="] = Except.ok connectedConn :=
  ⟨(C13_short_params_dropped connectedConn [qs "me"]).1 (by decide),
   (C13_short_params_dropped connectedConn [qs "me", qs "="]).2 (by decide)⟩

theorem split_join_names (names : QStringList) (hne : names ≠ [])
    (hnames : ∀ n ∈ names, ' ' ∉ n) : split ' ' (join ' ' names) = names := by
  induction names with
  | nil => exact absurd rfl hne
  | cons n ns ih =>
    cases ns with
    | nil => exact split_no_sep ' ' n (hnames n (List.mem_cons_self _ _))
    | cons k ks =>
      rw [join_cons_cons, split_append_sep ' ' n _ (hnames n (List.mem_cons_self _ _)),
        ih (by simp) (fun x hx => hnames x (List.mem_cons_of_mem _ hx))]

theorem splitSkipEmpty_join_names (names : QStringList)
    (hnames : ∀ n ∈ names, n ≠ [] ∧ ' ' ∉ n) :
    (split ' ' (join ' ' names)).filter (fun u => !u.isEmpty) = names := by
  cases names with
  | nil => rfl
  | cons n ns =>
    rw [split_join_names (n :: ns) (by simp) (fun x hx => (hnames x hx).2),
      List.filter_eq_self]
    intro x hx
    have := (hnames x hx).1
    cases x with
    | nil => exact absurd rfl this
    | cons a t => rfl

/-- C14 (as stated, fails): on ":server 353 me = #room :alice bob alice" the
users of the one userListReceived emitted are ["alice", "bob", "alice"]: the
name "alice" occurs twice. -/
theorem C14_repeated_name_counterexample :
    (parseIrcMessage connectedConn (qs ":server 353 me = #room :alice bob alice")).map
        (fun c => c.emitted)
      = Except.ok [Event.userListReceived (qs "#room") [qs "alice", qs "bob", qs "alice"]]
    ∧ ¬ [qs "alice", qs "bob", qs "alice"].Nodup
    ∧ [qs "alice", qs "bob", qs "alice"].count (qs "alice") = 2 := by
  refine ⟨by decide, by decide, by decide⟩

theorem handleNumericReply_names_short (c : IrcConnection) (params : QStringList)
    (hlen : params.length < 3) : handleNumericReply c 353 params = Except.ok c := by
  have h2 : ((353 : Int) = 1) = False := by decide
  have h3 : ((353 : Int) = 332) = False := by decide
  have hn : ¬ params.length ≥ 3 := by omega
  simp only [handleNumericReply, h2, h3, if_false, if_true, hn]
  rfl

/-- C14 (amended): every 353 reply either has fewer than three params and
emits nothing, or has a channel `params[2]` and a name list `rest` (the params
after the channel); then exactly one signal is emitted, userListReceived, and its users are
the names of the reply in the order received: the tokens of the name list
(joined by single spaces and cut at every space, so that joining them gives
back the name list and none holds a space) with the empty ones left out and
nothing else left out or added.  The users are a sublist of the tokens, none
is empty, and every non-empty token occurs in the users exactly as often as
among the tokens, so a name that the reply repeats is kept each time.  In
particular, when the name list is the names `names` (each non-empty and
without space) joined by single spaces, the users are exactly `names`. -/
theorem C14_user_list_keeps_names (c : IrcConnection) (p0 p1 channel : QString)
    (rest : QStringList) :
    handleNumericReply c 353 (p0 :: p1 :: channel :: rest)
        = Except.ok { c with
            emitted := c.emitted ++ [Event.userListReceived channel
              ((split ' ' (join ' ' rest)).filter (fun u => !u.isEmpty))] }
    ∧ join ' ' (split ' ' (join ' ' rest)) = join ' ' rest
    ∧ (∀ t ∈ split ' ' (join ' ' rest), ' ' ∉ t)
    ∧ ((split ' ' (join ' ' rest)).filter (fun u => !u.isEmpty)).Sublist
        (split ' ' (join ' ' rest))
    ∧ (∀ u ∈ (split ' ' (join ' ' rest)).filter (fun u => !u.isEmpty), u ≠ [])
    ∧ (∀ n : QString, n ≠ [] →
        ((split ' ' (join ' ' rest)).filter (fun u => !u.isEmpty)).count n
          = (split ' ' (join ' ' rest)).count n)
    ∧ (∀ names : QStringList, (∀ n ∈ names, n ≠ [] ∧ ' ' ∉ n) →
        join ' ' rest = join ' ' names →
        (split ' ' (join ' ' rest)).filter (fun u => !u.isEmpty) = names)
    ∧ (∀ params : QStringList, params.length < 3 →
        handleNumericReply c 353 params = Except.ok c) := by
  refine ⟨?_, join_split ' ' _, split_no_sep_mem ' ' _, List.filter_sublist _, ?_, ?_, ?_,
    handleNumericReply_names_short c⟩
  · rw [handleNumericReply_names]
    rfl
  · intro u hu he
    have hne := (List.mem_filter.mp hu).2
    simp [he] at hne
  · intro n hn
    apply List.count_filter
    cases n with
    | nil => exact absurd rfl hn
    | cons a t => rfl
  · intro names hnames hjoin
    rw [hjoin]
    exact splitSkipEmpty_join_names names hnames

/-- C14 (amended) at a name list with a run of two spaces and a repeated name,
and at a reply that gives the names as separate params. -/
theorem C14_user_list_keeps_names_witness :
    handleNumericReply connectedConn 353 [qs "me", qs "=", qs "#room", qs "alice  bob alice"]
      = Except.ok { connectedConn with
          emitted := [Event.userListReceived (qs "#room") [qs "alice", qs "bob", qs "alice"]] }
    ∧ split ' ' (join ' ' [qs "alice  bob alice"]) = [qs "alice", qs "", qs "bob", qs "alice"]
    ∧ ((split ' ' (join ' ' [qs "alice  bob alice"])).filter (fun u => !u.isEmpty)).count
          (qs "alice") = 2
    ∧ (split ' ' (join ' ' [qs "alice", qs "@bob", qs "alice"])).filter (fun u => !u.isEmpty)
        = [qs "alice", qs "@bob", qs "alice"] :=
  ⟨(C14_user_list_keeps_names connectedConn (qs "me") (qs "=") (qs "#room")
      [qs "alice  bob alice"]).1,
   by decide, by decide,
   (C14_user_list_keeps_names connectedConn (qs "me") (qs "=") (qs "#room")
      [qs "alice", qs "@bob", qs "alice"]).2.2.2.2.2.2.1
      [qs "alice", qs "@bob", qs "alice"] (by decide) rfl⟩

/-! ## C15: effects of one line -/

/-- The effect of a parsed message, with the commands that can cause it. -/
theorem dispatch_effect_command (m : ParsedMessage) :
    ∃ eff : LineEffect, (∀ c, dispatch c m = eff.run c)
      ∧ ((∃ msg, eff = LineEffect.reply msg) ↔ m.command = qs "PING")
      ∧ (m.command ≠ qs "PING" → toInt m.command = none → m.command ≠ qs "PRIVMSG" →
          m.command ≠ qs "NOTICE" → m.command ≠ qs "JOIN" → m.command ≠ qs "PART" →
          m.command ≠ qs "NICK" → eff = LineEffect.nothing) := by
  by_cases hping : m.command = qs "PING"
  · refine ⟨LineEffect.reply (arg (qs "PONG %1")
        (if m.trailing.isEmpty then join ' ' m.parts else m.trailing)), ?_, ?_, ?_⟩
    · intro c
      simp only [dispatch, hping, if_true]
      rfl
    · exact ⟨fun _ => hping, fun _ => ⟨_, rfl⟩⟩
    · intro h
      exact absurd hping h
  · obtain ⟨eff, heff⟩ := dispatch_effect m
    have hnot : ¬ ∃ msg, eff = LineEffect.reply msg := by
      rintro ⟨msg, he⟩
      have h := heff connectedConn
      rw [he] at h
      have hops : ∀ c1, dispatch connectedConn m = Except.ok c1 →
          c1.m_socket.ops = connectedConn.m_socket.ops := by
        intro c1 h1
        simp only [dispatch, hping, if_false] at h1
        cases hnum : toInt m.command with
        | some code =>
          rw [hnum] at h1
          simp only at h1
          rcases handleNumericReply_effect code
              (if (!m.trailing.isEmpty) = true then m.parts ++ [m.trailing] else m.parts) with
            ⟨f, hf⟩ | hf | ⟨e, hf⟩
          · rw [hf] at h1; cases h1
          · rw [hf] at h1; cases h1; rfl
          · rw [hf] at h1; cases h1; rfl
        | none =>
          rw [hnum] at h1
          simp only at h1
          split at h1
          · split at h1
            · cases hi : index m.parts 0 with
              | error f => rw [hi] at h1; cases h1
              | ok t => rw [hi] at h1; cases h1; rfl
            · cases h1; rfl
          · split at h1
            · cases h1; rfl
            · split at h1
              · split at h1
                · cases hi : index m.parts 0 with
                  | error f => rw [hi] at h1; cases h1
                  | ok t => rw [hi] at h1; cases h1; rfl
                · cases h1; rfl
              · split at h1
                · split at h1
                  · cases hi : index m.parts 0 with
                    | error f => rw [hi] at h1; cases h1
                    | ok t => rw [hi] at h1; cases h1; rfl
                  · cases h1; rfl
                · split at h1
                  · split at h1
                    · cases hi : index m.parts 0 with
                      | error f => rw [hi] at h1; cases h1
                      | ok t => rw [hi] at h1; cases h1; rfl
                    · cases h1; rfl
                  · cases h1; rfl
      have := hops _ h
      have hbad : (sendRawMessage connectedConn msg).m_socket.ops
          ≠ connectedConn.m_socket.ops := by
        rw [sendRawMessage_connected _ _ (by decide)]
        simp
      exact hbad this
    refine ⟨eff, heff, ⟨fun h => absurd h hnot, fun h => absurd h hping⟩, ?_⟩
    intro _ hnum h1 h2 h3 h4 h5
    have hrun : dispatch connectedConn m = Except.ok connectedConn := by
      simp only [dispatch, hping, if_false, hnum, h1, h2, h3, h4, h5]
      rfl
    rw [heff] at hrun
    cases eff with
    | fault f => cases hrun
    | nothing => rfl
    | signal e =>
      have : (emit connectedConn e).emitted = connectedConn.emitted := by
        simp only [LineEffect.run] at hrun
        injection hrun with hrun
        rw [hrun]
      simp [emit, connectedConn] at this
    | reply msg => exact absurd ⟨msg, rfl⟩ hnot

theorem parseLine_total (line : QString) : ∃ m, parseLine line = some m := by
  by_cases hline : startsWith line ':' = true
  · simp only [parseLine, hline, if_true]
    cases hs : split ' ' (trimmed (midFrom line (indexOf line ' ' + 1))) with
    | nil => exact absurd hs (split_ne_nil ' ' _)
    | cons command rest => exact ⟨_, rfl⟩
  · have hf : startsWith line ':' = false := by simpa using hline
    rw [parseLine_plain line hf]
    cases hs : split ' ' line with
    | nil => exact absurd hs (split_ne_nil ' ' _)
    | cons command rest => exact ⟨_, rfl⟩

/-- C15: for every line on which parseIrcMessage completes, the parse step
yields a message and: at most one signal is emitted; a call is made on the
socket only when the command is exactly "PING", and in that case no signal is
emitted; and when the command is not "PING", is not numeric (toInt fails) and
is none of "PRIVMSG", "NOTICE", "JOIN", "PART", "NICK", compared character by
character, the connection is left exactly as it was: no signal and no write. -/
theorem C15_one_line_effects (c c1 : IrcConnection) (line : QString)
    (hrun : parseIrcMessage c line = Except.ok c1) :
    ∃ m, parseLine line = some m
      ∧ (c1.emitted = c.emitted ∨ ∃ e, c1.emitted = c.emitted ++ [e])
      ∧ (c1.m_socket.ops ≠ c.m_socket.ops → m.command = qs "PING")
      ∧ (m.command = qs "PING" → c1.emitted = c.emitted)
      ∧ (m.command ≠ qs "PING" → toInt m.command = none → m.command ≠ qs "PRIVMSG" →
          m.command ≠ qs "NOTICE" → m.command ≠ qs "JOIN" → m.command ≠ qs "PART" →
          m.command ≠ qs "NICK" → c1 = c) := by
  obtain ⟨m, hm⟩ := parseLine_total line
  obtain ⟨eff, heff, hreply, hnothing⟩ := dispatch_effect_command m
  have hrun2 : eff.run c = Except.ok c1 := by
    rw [← heff]
    simpa only [parseIrcMessage, hm] using hrun
  have hsend : ∀ msg, (sendRawMessage c msg).emitted = c.emitted := by
    intro msg
    unfold sendRawMessage
    split <;> rfl
  refine ⟨m, hm, ?_, ?_, ?_, ?_⟩
  · cases eff with
    | fault f => cases hrun2
    | nothing => cases hrun2; exact Or.inl rfl
    | signal e => cases hrun2; exact Or.inr ⟨e, rfl⟩
    | reply msg => cases hrun2; exact Or.inl (hsend msg)
  · intro hops
    cases eff with
    | fault f => cases hrun2
    | nothing => cases hrun2; exact absurd rfl hops
    | signal e => cases hrun2; exact absurd rfl hops
    | reply msg => exact hreply.mp ⟨msg, rfl⟩
  · intro hping
    obtain ⟨msg, he⟩ := hreply.mpr hping
    rw [he] at hrun2
    cases hrun2
    exact hsend msg
  · intro h0 hnum h1 h2 h3 h4 h5
    rw [hnothing h0 hnum h1 h2 h3 h4 h5] at hrun2
    cases hrun2
    rfl

/-- C15 at a PING line, at a line with an unknown command and at a line whose
command differs from "PRIVMSG" by case only. -/
theorem C15_one_line_effects_witness :
    (∃ m, parseLine (qs "privmsg #room :hi") = some m
      ∧ (connectedConn.emitted = connectedConn.emitted
          ∨ ∃ e, connectedConn.emitted = connectedConn.emitted ++ [e])
      ∧ (connectedConn.m_socket.ops ≠ connectedConn.m_socket.ops → m.command = qs "PING")
      ∧ (m.command = qs "PING" → connectedConn.emitted = connectedConn.emitted)
      ∧ (m.command ≠ qs "PING" → toInt m.command = none → m.command ≠ qs "PRIVMSG" →
          m.command ≠ qs "NOTICE" → m.command ≠ qs "JOIN" → m.command ≠ qs "PART" →
          m.command ≠ qs "NICK" → connectedConn = connectedConn))
    ∧ parseIrcMessage connectedConn (qs "privmsg #room :hi") = Except.ok connectedConn
    ∧ parseIrcMessage connectedConn (qs ":irc.example.org MODE #room +o bob")
        = Except.ok connectedConn
    ∧ (parseIrcMessage connectedConn (qs "PING :abc123")).map (fun c => c.emitted)
        = Except.ok [] :=
  ⟨C15_one_line_effects connectedConn connectedConn (qs "privmsg #room :hi") (by decide),
   by decide, by decide, by decide⟩

end IrcChat
